import Mathlib

/-!
# Verification of `BFsFamilytree.py`

A shallow embedding of the family-tree script: `build_family_graph` turns a
list of family records into an undirected adjacency structure,
`find_shortest_path_tree` runs a breadth-first search from a chosen root and
returns a predecessor map, and `mark_direct_lineage` re-emits the records
with the parent/child links lying on the BFS tree marked with a `*`.

Python dictionaries are modelled as association lists (insertion order,
lookup of the unique key), Python sets of neighbours as duplicate-free lists
in insertion order, `None` as `Option.none`, and Python truthiness of a
string (`if father and ...`) as the string being nonempty.
-/

set_option maxRecDepth 8192

namespace FamilyTree

/-- One family record (a Python dict). `Father`/`Mother` are `none` when the
key is absent or maps to Python `None`; `Children` is `none` when the key is
absent (the code reads it with `card.get("Children", [])`). `extra` stands
for all remaining key/value pairs of the dict, which the code copies through
untouched. -/
structure Card where
  Name : String
  Father : Option String
  Mother : Option String
  Children : Option (List String)
  extra : List (String × String)
deriving Repr, DecidableEq

/-- Adjacency structure: Python `dict` from person to the set of neighbours,
as an association list of duplicate-free neighbour lists. -/
abbrev Graph := List (String × List String)

/-- Predecessor map: Python `dict` from person to `None` (the root) or the
predecessor's name. -/
abbrev PredMap := List (String × Option String)

/-- Association-list lookup (Python `d[k]` / `k in d`). -/
def alookup {α : Type} (k : String) : List (String × α) → Option α
  | [] => none
  | (k', v) :: rest => if k' = k then some v else alookup k rest

/-- The keys of an association list, in insertion order. -/
def keys {α : Type} (l : List (String × α)) : List String := l.map Prod.fst

/-- Python `graph.setdefault(k, set())`: insert an empty entry if absent. -/
def setdefaultEmpty (g : Graph) (k : String) : Graph :=
  if (alookup k g).isSome then g else g ++ [(k, [])]

/-- Python `graph[k].add(v)`: add `v` to the neighbour set of `k` (a dict
has a single entry per key; a no-op on an absent key — the script only
calls it on present keys). -/
def addEdgeTo : Graph → String → String → Graph
  | [], _, _ => []
  | (k', l) :: rest, k, v =>
    if k' = k then (k', if v ∈ l then l else l ++ [v]) :: rest
    else (k', l) :: addEdgeTo rest k v

/-- The two-line insertion pattern shared by the parent and child cases:
`graph[person].add(other); graph.setdefault(other, set()).add(person)`. -/
def addUndirectedEdge (g : Graph) (person other : String) : Graph :=
  addEdgeTo (setdefaultEmpty (addEdgeTo g person other) other) other person

/-- Lines 28–35 of the script: connect `person` to a parent field value.
`None` and `""` are falsy in Python, and the `"Unknown"` sentinel is
skipped; otherwise the edge is inserted in both directions. -/
def addParentEdge (g : Graph) (person : String) : Option String → Graph
  | none => g
  | some parent =>
    if parent = "" then g
    else if parent = "Unknown" then g
    else addUndirectedEdge g person parent

/-- Lines 38–40 of the script: connect `person` to a child, unconditionally
(no sentinel check on children). -/
def addChildEdge (g : Graph) (person child : String) : Graph :=
  addUndirectedEdge g person child

/-- The body of the `for card in family_data` loop of `build_family_graph`. -/
def addCard (g : Graph) (c : Card) : Graph :=
  let g1 := setdefaultEmpty g c.Name
  let g2 := addParentEdge g1 c.Name c.Father
  let g3 := addParentEdge g2 c.Name c.Mother
  (c.Children.getD []).foldl (fun acc ch => addChildEdge acc c.Name ch) g3

/-- `build_family_graph(family_data)`. -/
def build_family_graph (family_data : List Card) : Graph :=
  family_data.foldl addCard []

/-- Neighbour set of a node (`graph[x]`, empty when absent — the script only
reads neighbours of nodes that are present). -/
def neighbors (g : Graph) (x : String) : List String := (alookup x g).getD []

/-- The inner `for neighbor in graph[current_person]` loop of the BFS:
every neighbour not yet in the predecessor map gets `current` recorded as
its predecessor and is appended to the queue. -/
def bfsVisit (current : String) : List String → PredMap → List String → PredMap × List String
  | [], pred, q => (pred, q)
  | n :: ns, pred, q =>
    if (alookup n pred).isSome then bfsVisit current ns pred q
    else bfsVisit current ns (pred ++ [(n, some current)]) (q ++ [n])

/-- The `while queue` loop of `find_shortest_path_tree`, with explicit fuel;
`none` means the fuel ran out before the queue drained (shown impossible for
the fuel used below). -/
def bfsAux (g : Graph) : Nat → PredMap → List String → Option PredMap
  | _, pred, [] => some pred
  | 0, _, _ :: _ => none
  | fuel+1, pred, current :: rest =>
    let st := bfsVisit current (neighbors g current) pred rest
    bfsAux g fuel st.1 st.2

/-- All names occurring in the graph (keys and neighbour entries). -/
def namesF (g : Graph) : Finset String :=
  g.foldr (fun e acc => insert e.1 (e.2.foldr insert acc)) ∅

/-- Fuel that always suffices to drain the BFS queue: each loop iteration
consumes one unit, and each node is enqueued at most once. -/
def fuelBound (g : Graph) : Nat := 1 + 2 * (namesF g).card

/-- `find_shortest_path_tree(graph, start_node)`: empty map when the start
node is absent, otherwise the BFS predecessor map. -/
def find_shortest_path_tree (g : Graph) (start_node : String) : PredMap :=
  if (alookup start_node g).isSome then
    (bfsAux g (fuelBound g) [(start_node, none)] [start_node]).getD []
  else []

/-- Python `predecessors.get(x)`: `None` both when `x` is absent and when it
is the root (stored value `None`). -/
def predGet (pred : PredMap) (k : String) : Option String :=
  match alookup k pred with
  | none => none
  | some v => v

/-- Lines 107–114 of the script: the `Father`/`Mother` marking. The field is
re-set to `*name` exactly when the stored name is truthy (nonempty) and one
endpoint is the BFS predecessor of the other; otherwise the original value
is kept. -/
def markParentField (pred : PredMap) (person : String) : Option String → Option String
  | none => none
  | some f =>
    if f ≠ "" ∧ (predGet pred person = some f ∨ predGet pred f = some person)
    then some ("*" ++ f) else some f

/-- Lines 118–122 of the script: marking of one child entry. -/
def markChild (pred : PredMap) (person child : String) : String :=
  if predGet pred child = some person ∨ predGet pred person = some child
  then "*" ++ child else child

/-- The body of the marking loop of `mark_direct_lineage`: `card.copy()`
with the three relationship fields re-set. -/
def markCard (pred : PredMap) (c : Card) : Card :=
  { c with
    Father := markParentField pred c.Name c.Father
    Mother := markParentField pred c.Name c.Mother
    Children := some ((c.Children.getD []).map (markChild pred c.Name)) }

/-- `mark_direct_lineage` with the graph passed explicitly (the script
builds it from `family_data`; keeping it a parameter lets theorems quantify
over the neighbour iteration order). -/
def mark_with_graph (family_data : List Card) (g : Graph) (start : String) : List Card :=
  let predecessors := find_shortest_path_tree g start
  if predecessors.isEmpty then family_data
  else family_data.map (markCard predecessors)

/-- `mark_direct_lineage(family_data, start_person_name)` (the returned
value; the warning print on the not-found path is I/O). -/
def mark_direct_lineage (family_data : List Card) (start : String) : List Card :=
  mark_with_graph family_data (build_family_graph family_data) start

/-- The inline 14-person sample dataset of `main()`. -/
def sampleData : List Card :=
  [ ⟨"Alice", some "Arlo", some "Madeline", some [], []⟩,
    ⟨"Bob", some "Charlie", some "Eve", some [], []⟩,
    ⟨"Eve", some "Oliver", some "Aurora", some ["Bob"], []⟩,
    ⟨"Charlie", some "Jack", some "Luna", some ["Bob"], []⟩,
    ⟨"Madeline", some "Jack", some "Aurora", some ["Alice"], []⟩,
    ⟨"Arlo", some "Oscar", some "Isla", some ["Alice"], []⟩,
    ⟨"Oliver", some "Hugo", some "Rose", some ["Eve"], []⟩,
    ⟨"Luna", some "Oscar", some "Isla", some ["Charlie"], []⟩,
    ⟨"Aurora", some "Hugo", some "Rose", some ["Eve", "Madeline"], []⟩,
    ⟨"Jack", some "Oscar", some "Rose", some ["Charlie", "Madeline"], []⟩,
    ⟨"Hugo", some "Unknown", some "Unknown", some ["Oliver", "Aurora"], []⟩,
    ⟨"Rose", some "Unknown", some "Unknown", some ["Oliver", "Aurora", "Jack"], []⟩,
    ⟨"Isla", some "Unknown", some "Unknown", some ["Luna", "Arlo"], []⟩,
    ⟨"Oscar", some "Unknown", some "Unknown", some ["Luna", "Jack", "Arlo"], []⟩ ]

/-- Two graphs with the same nodes whose neighbour sets hold the same names,
possibly listed in a different iteration order (Python set iteration order is
unspecified). -/
def SameGraphUpToOrder (g g' : Graph) : Prop :=
  ∀ k, ((alookup k g').isSome ↔ (alookup k g).isSome) ∧
    (neighbors g' k).Perm (neighbors g k)

/-- Replace an `"Unknown"` father or mother by an absent one. -/
def scrubUnknown (c : Card) : Card :=
  { c with
    Father := if c.Father = some "Unknown" then none else c.Father
    Mother := if c.Mother = some "Unknown" then none else c.Mother }

/-- Two records in which the second one's father is the empty string, which
is falsy in Python. -/
def dataEmptyFather : List Card :=
  [⟨"", none, none, some ["A"], []⟩, ⟨"A", some "", none, none, []⟩]

/-- One record whose father is the sentinel and whose children list also
holds the literal name `"Unknown"`. -/
def dataUnknownChild : List Card :=
  [⟨"A", some "Unknown", none, some ["Unknown"], []⟩]

/-- One record naming the BFS root as its father. -/
def dataRootParent : List Card :=
  [⟨"A", some "R", none, none, []⟩]

/-- One record with no parents and no `Children` key. -/
def dataSoleRecord : List Card :=
  [⟨"A", none, none, none, []⟩]

/-! ## Specification-side notions: adjacency, paths, distance -/

/-- `b` is a neighbour of `a`. -/
def Adj (g : Graph) (a b : String) : Prop := b ∈ neighbors g a

/-- There is a walk of exactly `k` edges from `s` to the given node. -/
inductive PathLen (g : Graph) (s : String) : String → Nat → Prop
  | refl : PathLen g s s 0
  | step {b c : String} {k : Nat} :
      PathLen g s b k → Adj g b c → PathLen g s c (k + 1)

/-- `n` is reachable from `s` in `g`. -/
def Reachable (g : Graph) (s n : String) : Prop := ∃ k, PathLen g s n k

/-- `d` is the length of a path from `s` to `n` and no path is shorter. -/
def IsDist (g : Graph) (s n : String) (d : Nat) : Prop :=
  PathLen g s n d ∧ ∀ j, PathLen g s n j → d ≤ j

/-- Length of the chain of predecessor links from `n` back to the root
(`some 0` at the root's `None` entry), with fuel. -/
def predChainLen (pred : PredMap) : Nat → String → Option Nat
  | 0, _ => none
  | fuel+1, n =>
    match alookup n pred with
    | none => none
    | some none => some 0
    | some (some m) => (predChainLen pred fuel m).map (· + 1)

/-- The undirected edges contributed by one record: its name to each truthy
non-`"Unknown"` parent, and its name to each child entry. -/
def cardEdges (c : Card) (x y : String) : Prop :=
  (∃ p, (c.Father = some p ∨ c.Mother = some p) ∧ p ≠ "" ∧ p ≠ "Unknown" ∧
    ((x = c.Name ∧ y = p) ∨ (x = p ∧ y = c.Name))) ∨
  (∃ ch, ch ∈ c.Children.getD [] ∧ ((x = c.Name ∧ y = ch) ∨ (x = ch ∧ y = c.Name)))

/-- A graph is closed when every adjacency endpoint is a key. -/
def ClosedGraph (g : Graph) : Prop :=
  ∀ x y, Adj g x y → (alookup x g).isSome ∧ (alookup y g).isSome

/-- Nodes of the graph not yet recorded in the predecessor map. -/
def unseenCount (g : Graph) (pred : PredMap) : Nat :=
  ((namesF g).filter (fun x => alookup x pred = none)).card

/-- The invariant at each iteration of the BFS loop: the queue splits into a
`front` of nodes at distance `d0` and a `back` at distance `d0 + 1`; the
predecessor map records exactly one entry per discovered node, parents lie
one BFS layer closer to the root, all nodes at distance ≤ `d0` are already
discovered, and every dequeued node has all its neighbours discovered. -/
structure BfsInvAt (g : Graph) (root : String) (pred : PredMap) (d0 : Nat)
    (front back : List String) : Prop where
  keys_nodup : (keys pred).Nodup
  root_mem : alookup root pred = some none
  root_only_none : ∀ n, alookup n pred = some none → n = root
  entry_dist : ∀ n m, alookup n pred = some (some m) →
    Adj g m n ∧ (alookup m pred).isSome ∧ ∃ k, IsDist g root m k ∧ IsDist g root n (k + 1)
  keys_reach : ∀ n, (alookup n pred).isSome → Reachable g root n
  queue_sub : ∀ n, n ∈ front ++ back → (alookup n pred).isSome
  front_dist : ∀ n ∈ front, IsDist g root n d0
  back_dist : ∀ n ∈ back, IsDist g root n (d0 + 1)
  complete : ∀ n k, IsDist g root n k → k ≤ d0 → (alookup n pred).isSome
  processed : ∀ u, (alookup u pred).isSome → u ∉ front ++ back →
    ∀ v, Adj g u v → (alookup v pred).isSome

/-- The packaged invariant: some layer split of the queue satisfies
`BfsInvAt`. -/
def BfsInv (g : Graph) (root : String) (pred : PredMap) (queue : List String) : Prop :=
  ∃ d0 front back, queue = front ++ back ∧ BfsInvAt g root pred d0 front back

/-! ## Association-list lemmas -/

theorem alookup_cons {α : Type} (k k' : String) (v : α) (l : List (String × α)) :
    alookup k ((k', v) :: l) = if k' = k then some v else alookup k l := rfl

theorem alookup_append_left {α : Type} {k : String} {l₁ : List (String × α)}
    (h : (alookup k l₁).isSome) (l₂ : List (String × α)) :
    alookup k (l₁ ++ l₂) = alookup k l₁ := by
  induction l₁ with
  | nil => simp [alookup] at h
  | cons e rest ih =>
    obtain ⟨k', v⟩ := e
    rw [List.cons_append, alookup_cons, alookup_cons]
    by_cases hk : k' = k
    · rw [if_pos hk, if_pos hk]
    · rw [if_neg hk, if_neg hk]
      rw [alookup_cons, if_neg hk] at h
      exact ih h

theorem alookup_append_right {α : Type} {k : String} {l₁ : List (String × α)}
    (h : alookup k l₁ = none) (l₂ : List (String × α)) :
    alookup k (l₁ ++ l₂) = alookup k l₂ := by
  induction l₁ with
  | nil => simp
  | cons e rest ih =>
    obtain ⟨k', v⟩ := e
    rw [List.cons_append, alookup_cons]
    by_cases hk : k' = k
    · rw [alookup_cons, if_pos hk] at h
      exact absurd h (by simp)
    · rw [if_neg hk]
      rw [alookup_cons, if_neg hk] at h
      exact ih h

theorem keys_cons {α : Type} (e : String × α) (l : List (String × α)) :
    keys (e :: l) = e.1 :: keys l := rfl

theorem mem_keys_iff {α : Type} (k : String) (l : List (String × α)) :
    k ∈ keys l ↔ (alookup k l).isSome := by
  induction l with
  | nil => simp [keys, alookup]
  | cons e rest ih =>
    obtain ⟨k', v⟩ := e
    rw [keys_cons, List.mem_cons, alookup_cons]
    by_cases hk : k' = k
    · simp [hk]
    · have hk' : ¬ k = k' := fun h => hk h.symm
      simp [hk, hk', ih]

/-! ## Graph-builder lemmas -/

theorem alookup_addEdgeTo (g : Graph) (k v x : String) :
    alookup x (addEdgeTo g k v) =
      if x = k then (alookup k g).map (fun l => if v ∈ l then l else l ++ [v])
      else alookup x g := by
  induction g with
  | nil => by_cases h : x = k <;> simp [addEdgeTo, alookup, h]
  | cons e rest ih =>
    obtain ⟨k', nl⟩ := e
    by_cases hk : k' = k
    · subst hk
      by_cases hx : x = k'
      · subst hx
        simp [addEdgeTo, alookup_cons]
      · have hx' : ¬ k' = x := fun h => hx h.symm
        simp [addEdgeTo, alookup_cons, hx, hx']
    · by_cases hx : k' = x
      · subst hx
        simp [addEdgeTo, alookup_cons, hk]
      · simp [addEdgeTo, alookup_cons, hk, hx, ih]

theorem containsKey_addEdgeTo (g : Graph) (k v x : String) :
    (alookup x (addEdgeTo g k v)).isSome = (alookup x g).isSome := by
  rw [alookup_addEdgeTo]
  by_cases hx : x = k
  · subst hx
    cases h : alookup x g <;> simp [h]
  · simp [hx]

theorem setdefaultEmpty_of_mem {g : Graph} {k : String}
    (h : (alookup k g).isSome) : setdefaultEmpty g k = g := by
  simp [setdefaultEmpty, h]

theorem setdefaultEmpty_of_not_mem {g : Graph} {k : String}
    (h : alookup k g = none) : setdefaultEmpty g k = g ++ [(k, [])] := by
  simp [setdefaultEmpty, h]

theorem alookup_setdefaultEmpty (g : Graph) (k x : String) :
    alookup x (setdefaultEmpty g k) =
      if (alookup x g).isSome then alookup x g
      else if x = k then some [] else none := by
  cases hkg : alookup k g with
  | some l =>
    rw [setdefaultEmpty_of_mem (by simp [hkg])]
    cases hxg : alookup x g with
    | some m => simp
    | none =>
      by_cases hxk : x = k
      · subst hxk
        rw [hkg] at hxg
        exact absurd hxg (by simp)
      · simp [hxg, hxk]
  | none =>
    rw [setdefaultEmpty_of_not_mem hkg]
    cases hxg : alookup x g with
    | some m =>
      rw [alookup_append_left (by simp [hxg]), hxg]
      simp
    | none =>
      rw [alookup_append_right hxg]
      by_cases hxk : x = k
      · subst hxk
        simp [alookup_cons, hxg]
      · have hk' : ¬ k = x := fun h => hxk h.symm
        simp [alookup_cons, hk', hxg, hxk, alookup]

theorem containsKey_setdefaultEmpty (g : Graph) (k x : String) :
    (alookup x (setdefaultEmpty g k)).isSome ↔ (alookup x g).isSome ∨ x = k := by
  rw [alookup_setdefaultEmpty]
  by_cases hx : (alookup x g).isSome
  · simp [hx]
  · simp only [hx, if_false, false_or]
    by_cases hxk : x = k <;> simp [hxk]

theorem neighbors_setdefaultEmpty (g : Graph) (k x : String) :
    neighbors (setdefaultEmpty g k) x = neighbors g x := by
  unfold neighbors
  rw [alookup_setdefaultEmpty]
  by_cases hx : (alookup x g).isSome
  · simp [hx]
  · have hxn : alookup x g = none := by
      cases h : alookup x g with
      | none => rfl
      | some _ => rw [h] at hx; simp at hx
    by_cases hxk : x = k
    · subst hxk
      rw [hxn]
      simp [hxn]
    · simp [hx, hxk, hxn]

theorem adj_addEdgeTo (g : Graph) (k v x y : String) :
    Adj (addEdgeTo g k v) x y ↔
      Adj g x y ∨ (x = k ∧ (alookup k g).isSome ∧ y = v) := by
  unfold Adj neighbors
  rw [alookup_addEdgeTo]
  by_cases hx : x = k
  · subst hx
    rw [if_pos rfl]
    cases h : alookup x g with
    | none => simp
    | some l =>
      simp only [Option.map_some', Option.getD_some]
      by_cases hv : v ∈ l
      · rw [if_pos hv]
        constructor
        · exact fun hy => Or.inl hy
        · rintro (hy | ⟨-, -, rfl⟩)
          · exact hy
          · exact hv
      · rw [if_neg hv]
        rw [List.mem_append, List.mem_singleton]
        constructor
        · rintro (hy | rfl)
          · exact Or.inl hy
          · exact Or.inr ⟨trivial, rfl, rfl⟩
        · rintro (hy | ⟨-, -, rfl⟩)
          · exact Or.inl hy
          · exact Or.inr rfl
  · simp [hx]

theorem adj_setdefaultEmpty (g : Graph) (k x y : String) :
    Adj (setdefaultEmpty g k) x y ↔ Adj g x y := by
  unfold Adj
  rw [neighbors_setdefaultEmpty]

theorem containsKey_addUndirectedEdge (g : Graph) (p o x : String) :
    (alookup x (addUndirectedEdge g p o)).isSome ↔ (alookup x g).isSome ∨ x = o := by
  unfold addUndirectedEdge
  rw [containsKey_addEdgeTo, containsKey_setdefaultEmpty, containsKey_addEdgeTo]

theorem adj_addUndirectedEdge (g : Graph) (p o x y : String)
    (hp : (alookup p g).isSome) :
    Adj (addUndirectedEdge g p o) x y ↔
      Adj g x y ∨ (x = p ∧ y = o) ∨ (x = o ∧ y = p) := by
  unfold addUndirectedEdge
  rw [adj_addEdgeTo, adj_setdefaultEmpty, adj_addEdgeTo]
  have ho : (alookup o (setdefaultEmpty (addEdgeTo g p o) o)).isSome := by
    rw [containsKey_setdefaultEmpty]
    exact Or.inr rfl
  have hp' : (alookup p g).isSome = True := by simp [hp]
  simp only [ho, hp, true_and]
  tauto

theorem containsKey_addParentEdge_mono {g : Graph} {x : String} (person : String)
    (po : Option String) (h : (alookup x g).isSome) :
    (alookup x (addParentEdge g person po)).isSome := by
  cases po with
  | none => exact h
  | some p =>
    simp only [addParentEdge]
    by_cases h1 : p = ""
    · rw [if_pos h1]
      exact h
    · rw [if_neg h1]
      by_cases h2 : p = "Unknown"
      · rw [if_pos h2]
        exact h
      · rw [if_neg h2]
        exact (containsKey_addUndirectedEdge g person p x).mpr (Or.inl h)

theorem adj_addParentEdge (g : Graph) (person : String) (po : Option String)
    (x y : String) (hp : (alookup person g).isSome) :
    Adj (addParentEdge g person po) x y ↔
      Adj g x y ∨ ∃ p, po = some p ∧ p ≠ "" ∧ p ≠ "Unknown" ∧
        ((x = person ∧ y = p) ∨ (x = p ∧ y = person)) := by
  cases po with
  | none =>
    simp only [addParentEdge]
    constructor
    · exact Or.inl
    · rintro (h | ⟨p, hpe, -⟩)
      · exact h
      · cases hpe
  | some p =>
    simp only [addParentEdge]
    by_cases h1 : p = ""
    · rw [if_pos h1]
      constructor
      · exact Or.inl
      · rintro (h | ⟨p', hpe, hne, -, -⟩)
        · exact h
        · injection hpe with hpe
          subst hpe
          exact absurd h1 hne
    · rw [if_neg h1]
      by_cases h2 : p = "Unknown"
      · rw [if_pos h2]
        constructor
        · exact Or.inl
        · rintro (h | ⟨p', hpe, -, hnu, -⟩)
          · exact h
          · injection hpe with hpe
            subst hpe
            exact absurd h2 hnu
      · rw [if_neg h2]
        rw [adj_addUndirectedEdge g person p x y hp]
        constructor
        · rintro (h | h | h)
          · exact Or.inl h
          · exact Or.inr ⟨p, rfl, h1, h2, Or.inl h⟩
          · exact Or.inr ⟨p, rfl, h1, h2, Or.inr h⟩
        · rintro (h | ⟨p', hpe, -, -, hxy⟩)
          · exact Or.inl h
          · injection hpe with hpe
            subst hpe
            rcases hxy with h | h
            · exact Or.inr (Or.inl h)
            · exact Or.inr (Or.inr h)

theorem containsKey_childFold_mono (cs : List String) {g : Graph} {x : String}
    (person : String) (h : (alookup x g).isSome) :
    (alookup x (cs.foldl (fun acc ch => addChildEdge acc person ch) g)).isSome := by
  induction cs generalizing g with
  | nil => exact h
  | cons c cs ih =>
    rw [List.foldl_cons]
    exact ih ((containsKey_addUndirectedEdge g person c x).mpr (Or.inl h))

theorem adj_childFold (cs : List String) (g : Graph) (person x y : String)
    (hp : (alookup person g).isSome) :
    Adj (cs.foldl (fun acc ch => addChildEdge acc person ch) g) x y ↔
      Adj g x y ∨ ∃ ch, ch ∈ cs ∧ ((x = person ∧ y = ch) ∨ (x = ch ∧ y = person)) := by
  induction cs generalizing g with
  | nil => simp
  | cons c cs ih =>
    rw [List.foldl_cons]
    have hp' : (alookup person (addChildEdge g person c)).isSome :=
      (containsKey_addUndirectedEdge g person c person).mpr (Or.inl hp)
    rw [ih (addChildEdge g person c) hp']
    unfold addChildEdge
    rw [adj_addUndirectedEdge g person c x y hp]
    constructor
    · rintro ((h | h | h) | ⟨ch, hm, hxy⟩)
      · exact Or.inl h
      · exact Or.inr ⟨c, List.mem_cons_self c cs, Or.inl h⟩
      · exact Or.inr ⟨c, List.mem_cons_self c cs, Or.inr h⟩
      · exact Or.inr ⟨ch, List.mem_cons_of_mem c hm, hxy⟩
    · rintro (h | ⟨ch, hm, hxy⟩)
      · exact Or.inl (Or.inl h)
      · rcases List.mem_cons.mp hm with rfl | hm'
        · rcases hxy with h | h
          · exact Or.inl (Or.inr (Or.inl h))
          · exact Or.inl (Or.inr (Or.inr h))
        · exact Or.inr ⟨ch, hm', hxy⟩

theorem adj_addCard (g : Graph) (c : Card) (x y : String) :
    Adj (addCard g c) x y ↔ Adj g x y ∨ cardEdges c x y := by
  unfold addCard
  have h1 : (alookup c.Name (setdefaultEmpty g c.Name)).isSome :=
    (containsKey_setdefaultEmpty g c.Name c.Name).mpr (Or.inr rfl)
  have h2 : (alookup c.Name
      (addParentEdge (setdefaultEmpty g c.Name) c.Name c.Father)).isSome :=
    containsKey_addParentEdge_mono c.Name c.Father h1
  have h3 : (alookup c.Name
      (addParentEdge (addParentEdge (setdefaultEmpty g c.Name) c.Name c.Father)
        c.Name c.Mother)).isSome :=
    containsKey_addParentEdge_mono c.Name c.Mother h2
  rw [adj_childFold _ _ _ _ _ h3, adj_addParentEdge _ _ _ _ _ h2,
    adj_addParentEdge _ _ _ _ _ h1, adj_setdefaultEmpty]
  unfold cardEdges
  constructor
  · rintro (((h | ⟨p, hpe, hne, hnu, hxy⟩) | ⟨p, hpe, hne, hnu, hxy⟩) | ⟨ch, hm, hxy⟩)
    · exact Or.inl h
    · exact Or.inr (Or.inl ⟨p, Or.inl hpe, hne, hnu, hxy⟩)
    · exact Or.inr (Or.inl ⟨p, Or.inr hpe, hne, hnu, hxy⟩)
    · exact Or.inr (Or.inr ⟨ch, hm, hxy⟩)
  · rintro (h | (⟨p, hfm, hne, hnu, hxy⟩ | ⟨ch, hm, hxy⟩))
    · exact Or.inl (Or.inl (Or.inl h))
    · rcases hfm with hpe | hpe
      · exact Or.inl (Or.inl (Or.inr ⟨p, hpe, hne, hnu, hxy⟩))
      · exact Or.inl (Or.inr ⟨p, hpe, hne, hnu, hxy⟩)
    · exact Or.inr ⟨ch, hm, hxy⟩

theorem not_adj_nil (x y : String) : ¬ Adj [] x y := by
  simp [Adj, neighbors, alookup]

theorem adj_foldl_addCard (data : List Card) (g : Graph) (x y : String) :
    Adj (data.foldl addCard g) x y ↔ Adj g x y ∨ ∃ c, c ∈ data ∧ cardEdges c x y := by
  induction data generalizing g with
  | nil => simp
  | cons c cs ih =>
    rw [List.foldl_cons, ih, adj_addCard]
    constructor
    · rintro ((h | h) | ⟨c', hm, he⟩)
      · exact Or.inl h
      · exact Or.inr ⟨c, List.mem_cons_self c cs, h⟩
      · exact Or.inr ⟨c', List.mem_cons_of_mem c hm, he⟩
    · rintro (h | ⟨c', hm, he⟩)
      · exact Or.inl (Or.inl h)
      · rcases List.mem_cons.mp hm with rfl | hm'
        · exact Or.inl (Or.inr he)
        · exact Or.inr ⟨c', hm', he⟩

theorem adj_build (data : List Card) (x y : String) :
    Adj (build_family_graph data) x y ↔ ∃ c, c ∈ data ∧ cardEdges c x y := by
  unfold build_family_graph
  rw [adj_foldl_addCard]
  have h := not_adj_nil x y
  tauto

theorem cardEdges_symm (c : Card) (x y : String) :
    cardEdges c x y ↔ cardEdges c y x := by
  unfold cardEdges
  constructor
  · rintro (⟨p, hfm, hne, hnu, hxy⟩ | ⟨ch, hm, hxy⟩)
    · exact Or.inl ⟨p, hfm, hne, hnu, hxy.symm.imp And.symm And.symm⟩
    · exact Or.inr ⟨ch, hm, hxy.symm.imp And.symm And.symm⟩
  · rintro (⟨p, hfm, hne, hnu, hxy⟩ | ⟨ch, hm, hxy⟩)
    · exact Or.inl ⟨p, hfm, hne, hnu, hxy.symm.imp And.symm And.symm⟩
    · exact Or.inr ⟨ch, hm, hxy.symm.imp And.symm And.symm⟩

theorem adj_build_symm (data : List Card) (x y : String) :
    Adj (build_family_graph data) x y ↔ Adj (build_family_graph data) y x := by
  rw [adj_build, adj_build]
  exact exists_congr fun c => and_congr_right fun _ => cardEdges_symm c x y

/-! ## Closure: every neighbour occurring in a built graph is itself a key -/

theorem containsKey_addCard_mono {g : Graph} {x : String} (c : Card)
    (h : (alookup x g).isSome) : (alookup x (addCard g c)).isSome := by
  unfold addCard
  exact containsKey_childFold_mono _ c.Name
    (containsKey_addParentEdge_mono c.Name c.Mother
      (containsKey_addParentEdge_mono c.Name c.Father
        ((containsKey_setdefaultEmpty g c.Name x).mpr (Or.inl h))))

theorem containsKey_addCard_name (g : Graph) (c : Card) :
    (alookup c.Name (addCard g c)).isSome := by
  unfold addCard
  exact containsKey_childFold_mono _ c.Name
    (containsKey_addParentEdge_mono c.Name c.Mother
      (containsKey_addParentEdge_mono c.Name c.Father
        ((containsKey_setdefaultEmpty g c.Name c.Name).mpr (Or.inr rfl))))

theorem containsKey_addParentEdge_self (g : Graph) (person p : String)
    (h1 : p ≠ "") (h2 : p ≠ "Unknown") :
    (alookup p (addParentEdge g person (some p))).isSome := by
  simp only [addParentEdge, if_neg h1, if_neg h2]
  exact (containsKey_addUndirectedEdge g person p p).mpr (Or.inr rfl)

theorem containsKey_childFold_self (cs : List String) (g : Graph)
    (person : String) {ch : String} (hm : ch ∈ cs) :
    (alookup ch (cs.foldl (fun acc c => addChildEdge acc person c) g)).isSome := by
  induction cs generalizing g with
  | nil => cases hm
  | cons c cs ih =>
    rw [List.foldl_cons]
    rcases List.mem_cons.mp hm with rfl | hm'
    · exact containsKey_childFold_mono cs person
        ((containsKey_addUndirectedEdge g person ch ch).mpr (Or.inr rfl))
    · exact ih _ hm'

/-- All endpoints of the edges contributed by a record are keys of the
graph after processing the record. -/
theorem cardEdges_endpoints (g : Graph) (c : Card) (x y : String)
    (he : cardEdges c x y) :
    (alookup x (addCard g c)).isSome ∧ (alookup y (addCard g c)).isSome := by
  have hname : (alookup c.Name (addCard g c)).isSome := containsKey_addCard_name g c
  rcases he with ⟨p, hfm, hne, hnu, hxy⟩ | ⟨ch, hm, hxy⟩
  · have hp : (alookup p (addCard g c)).isSome := by
      unfold addCard
      rcases hfm with hpe | hpe
      · rw [hpe]
        exact containsKey_childFold_mono _ c.Name
          (containsKey_addParentEdge_mono c.Name c.Mother
            (containsKey_addParentEdge_self _ c.Name p hne hnu))
      · rw [hpe]
        exact containsKey_childFold_mono _ c.Name
          (containsKey_addParentEdge_self _ c.Name p hne hnu)
    rcases hxy with ⟨rfl, rfl⟩ | ⟨rfl, rfl⟩
    · exact ⟨hname, hp⟩
    · exact ⟨hp, hname⟩
  · have hch : (alookup ch (addCard g c)).isSome := by
      unfold addCard
      exact containsKey_childFold_self _ _ c.Name hm
    rcases hxy with ⟨rfl, rfl⟩ | ⟨rfl, rfl⟩
    · exact ⟨hname, hch⟩
    · exact ⟨hch, hname⟩

theorem closed_addCard {g : Graph} (c : Card) (h : ClosedGraph g) :
    ClosedGraph (addCard g c) := by
  intro x y hadj
  rw [adj_addCard] at hadj
  rcases hadj with hadj | he
  · obtain ⟨hx, hy⟩ := h x y hadj
    exact ⟨containsKey_addCard_mono c hx, containsKey_addCard_mono c hy⟩
  · exact cardEdges_endpoints g c x y he

theorem closed_foldl_addCard (data : List Card) (g : Graph) (h : ClosedGraph g) :
    ClosedGraph (data.foldl addCard g) := by
  induction data generalizing g with
  | nil => exact h
  | cons c cs ih =>
    rw [List.foldl_cons]
    exact ih _ (closed_addCard c h)

theorem closed_build (data : List Card) : ClosedGraph (build_family_graph data) := by
  unfold build_family_graph
  exact closed_foldl_addCard data [] (fun x y hadj => absurd hadj (not_adj_nil x y))

/-! ## BFS: structure of one visit pass -/

theorem alookup_append_prefix_none {α : Type} {k : String}
    {l₁ l₂ : List (String × α)} (h : alookup k (l₁ ++ l₂) = none) :
    alookup k l₁ = none := by
  cases h1 : alookup k l₁ with
  | none => rfl
  | some v =>
    rw [alookup_append_left (by simp [h1]) l₂] at h
    rw [h1] at h
    cases h

theorem alookup_map_pair (δ : List String) (c x : String) :
    alookup x (δ.map fun v => (v, some c)) =
      if x ∈ δ then some (some c) else none := by
  induction δ with
  | nil => simp [alookup]
  | cons v δ ih =>
    rw [List.map_cons, alookup_cons]
    by_cases hv : v = x
    · subst hv
      simp
    · have hv' : ¬ x = v := fun h => hv h.symm
      simp only [if_neg hv, ih, List.mem_cons]
      by_cases hm : x ∈ δ <;> simp [hm, hv']

theorem bfsVisit_spec (c : String) (ns : List String) (pred : PredMap) (q : List String) :
    ∃ δ : List String,
      bfsVisit c ns pred q = (pred ++ δ.map (fun v => (v, some c)), q ++ δ) ∧
      δ.Nodup ∧
      (∀ v ∈ δ, v ∈ ns ∧ alookup v pred = none) ∧
      (∀ n ∈ ns, (alookup n (pred ++ δ.map (fun v => (v, some c)))).isSome) := by
  induction ns generalizing pred q with
  | nil =>
    refine ⟨[], ?_, List.nodup_nil, ?_, ?_⟩
    · simp [bfsVisit]
    · intro v hv
      cases hv
    · intro n hn
      cases hn
  | cons n ns ih =>
    by_cases h : (alookup n pred).isSome
    · obtain ⟨δ, heq, hnd, hδ, hcov⟩ := ih pred q
      refine ⟨δ, ?_, hnd, ?_, ?_⟩
      · rw [bfsVisit, if_pos h]
        exact heq
      · intro v hv
        obtain ⟨hmem, hnone⟩ := hδ v hv
        exact ⟨List.mem_cons_of_mem n hmem, hnone⟩
      · intro m hm
        rcases List.mem_cons.mp hm with rfl | hm'
        · rw [alookup_append_left h]
          exact h
        · exact hcov m hm'
    · have hnone : alookup n pred = none := by
        cases h' : alookup n pred with
        | none => rfl
        | some _ => rw [h'] at h; simp at h
      obtain ⟨δ, heq, hnd, hδ, hcov⟩ := ih (pred ++ [(n, some c)]) (q ++ [n])
      have hn2 : (alookup n (pred ++ [(n, some c)])).isSome := by
        rw [alookup_append_right hnone, alookup_cons, if_pos rfl]
        simp
      refine ⟨n :: δ, ?_, ?_, ?_, ?_⟩
      · rw [bfsVisit, if_neg h, heq]
        rw [List.map_cons]
        rw [List.append_assoc q [n] δ, List.singleton_append]
        rw [List.append_assoc pred [(n, some c)] (δ.map fun v => (v, some c)),
          List.singleton_append]
      · rw [List.nodup_cons]
        refine ⟨?_, hnd⟩
        intro hmem
        obtain ⟨-, hnone'⟩ := hδ n hmem
        rw [alookup_append_right hnone, alookup_cons, if_pos rfl] at hnone'
        cases hnone'
      · intro v hv
        rcases List.mem_cons.mp hv with rfl | hv'
        · exact ⟨List.mem_cons_self v ns, hnone⟩
        · obtain ⟨hmem, hnone'⟩ := hδ v hv'
          exact ⟨List.mem_cons_of_mem n hmem, alookup_append_prefix_none hnone'⟩
      · intro m hm
        have hre : pred ++ [(n, some c)] ++ δ.map (fun v => (v, some c)) =
            pred ++ (n :: δ).map (fun v => (v, some c)) := by
          rw [List.map_cons, List.append_assoc, List.singleton_append]
        rcases List.mem_cons.mp hm with rfl | hm'
        · rw [← hre, List.append_assoc]
          rw [alookup_append_right hnone]
          rw [List.singleton_append, alookup_cons, if_pos rfl]
          simp
        · rw [← hre]
          exact hcov m hm'

theorem bfsVisit_preserves {c : String} {ns : List String} {pred : PredMap}
    {q : List String} {k : String} {x : Option String}
    (h : alookup k pred = some x) :
    alookup k (bfsVisit c ns pred q).1 = some x := by
  obtain ⟨δ, heq, -, -, -⟩ := bfsVisit_spec c ns pred q
  rw [heq]
  rw [alookup_append_left (by simp [h])]
  exact h

/-! ## BFS: termination with the chosen fuel -/

theorem mem_namesF (g : Graph) (x : String) :
    x ∈ namesF g ↔ ∃ e, e ∈ g ∧ (x = e.1 ∨ x ∈ e.2) := by
  induction g with
  | nil => simp [namesF]
  | cons e g ih =>
    unfold namesF at ih ⊢
    rw [List.foldr_cons]
    have hins : ∀ (l : List String) (acc : Finset String),
        x ∈ l.foldr insert acc ↔ x ∈ l ∨ x ∈ acc := by
      intro l
      induction l with
      | nil => simp
      | cons a l ihl =>
        intro acc
        rw [List.foldr_cons, Finset.mem_insert, ihl]
        simp [List.mem_cons, or_assoc]
    rw [Finset.mem_insert, hins, ih]
    constructor
    · rintro (rfl | hm | ⟨e', hm, hx⟩)
      · exact ⟨e, List.mem_cons_self e g, Or.inl rfl⟩
      · exact ⟨e, List.mem_cons_self e g, Or.inr hm⟩
      · exact ⟨e', List.mem_cons_of_mem e hm, hx⟩
    · rintro ⟨e', hm, hx⟩
      rcases List.mem_cons.mp hm with rfl | hm'
      · rcases hx with rfl | hm2
        · exact Or.inl rfl
        · exact Or.inr (Or.inl hm2)
      · exact Or.inr (Or.inr ⟨e', hm', hx⟩)

theorem alookup_mem {α : Type} {k : String} {v : α} {l : List (String × α)}
    (h : alookup k l = some v) : (k, v) ∈ l := by
  induction l with
  | nil => cases h
  | cons e rest ih =>
    obtain ⟨k', v'⟩ := e
    rw [alookup_cons] at h
    by_cases hk : k' = k
    · rw [if_pos hk] at h
      injection h with h
      subst hk
      subst h
      exact List.mem_cons_self _ _
    · rw [if_neg hk] at h
      exact List.mem_cons_of_mem _ (ih h)

theorem mem_namesF_of_neighbor {g : Graph} {c n : String}
    (h : n ∈ neighbors g c) : n ∈ namesF g := by
  unfold neighbors at h
  cases hc : alookup c g with
  | none => rw [hc] at h; cases h
  | some l =>
    rw [hc] at h
    rw [mem_namesF]
    exact ⟨(c, l), alookup_mem hc, Or.inr h⟩

theorem unseenCount_insert (g : Graph) (pred : PredMap) {n : String} (c : String)
    (hn : n ∈ namesF g) (hnone : alookup n pred = none) :
    unseenCount g (pred ++ [(n, some c)]) + 1 = unseenCount g pred := by
  unfold unseenCount
  have hset : (namesF g).filter (fun x => alookup x (pred ++ [(n, some c)]) = none) =
      ((namesF g).filter (fun x => alookup x pred = none)).erase n := by
    ext x
    rw [Finset.mem_erase, Finset.mem_filter, Finset.mem_filter]
    constructor
    · intro ⟨hx, hnone'⟩
      have hxp : alookup x pred = none := alookup_append_prefix_none hnone'
      refine ⟨?_, hx, hxp⟩
      intro hxn
      subst hxn
      rw [alookup_append_right hxp, alookup_cons, if_pos rfl] at hnone'
      cases hnone'
    · intro ⟨hxn, hx, hxp⟩
      refine ⟨hx, ?_⟩
      rw [alookup_append_right hxp, alookup_cons]
      rw [if_neg (fun h => hxn h.symm)]
      rfl
  rw [hset]
  have hmem : n ∈ (namesF g).filter (fun x => alookup x pred = none) := by
    rw [Finset.mem_filter]
    exact ⟨hn, hnone⟩
  rw [Finset.card_erase_of_mem hmem]
  have hpos : 0 < ((namesF g).filter (fun x => alookup x pred = none)).card :=
    Finset.card_pos.mpr ⟨n, hmem⟩
  omega

theorem bfsVisit_measure (g : Graph) (c : String) (ns : List String)
    (pred : PredMap) (q : List String) (hns : ∀ n ∈ ns, n ∈ namesF g) :
    (bfsVisit c ns pred q).2.length + 2 * unseenCount g (bfsVisit c ns pred q).1 ≤
      q.length + 2 * unseenCount g pred := by
  induction ns generalizing pred q with
  | nil => simp [bfsVisit]
  | cons n ns ih =>
    by_cases h : (alookup n pred).isSome
    · rw [bfsVisit, if_pos h]
      exact ih pred q (fun m hm => hns m (List.mem_cons_of_mem n hm))
    · have hnone : alookup n pred = none := by
        cases h' : alookup n pred with
        | none => rfl
        | some _ => rw [h'] at h; simp at h
      rw [bfsVisit, if_neg h]
      have hstep := ih (pred ++ [(n, some c)]) (q ++ [n])
        (fun m hm => hns m (List.mem_cons_of_mem n hm))
      have hcount := unseenCount_insert g pred c (hns n (List.mem_cons_self n ns)) hnone
      rw [List.length_append, List.length_singleton] at hstep
      omega

theorem bfsAux_total (g : Graph) : ∀ (fuel : Nat) (pred : PredMap) (q : List String),
    q.length + 2 * unseenCount g pred ≤ fuel → (bfsAux g fuel pred q).isSome := by
  intro fuel
  induction fuel with
  | zero =>
    intro pred q hq
    cases q with
    | nil => simp [bfsAux]
    | cons c rest => simp [List.length_cons] at hq
  | succ fuel ih =>
    intro pred q hq
    cases q with
    | nil => simp [bfsAux]
    | cons c rest =>
      rw [bfsAux]
      apply ih
      have hm := bfsVisit_measure g c (neighbors g c) pred rest
        (fun n hn => mem_namesF_of_neighbor hn)
      rw [List.length_cons] at hq
      omega

theorem unseenCount_le (g : Graph) (pred : PredMap) :
    unseenCount g pred ≤ (namesF g).card :=
  Finset.card_le_card (Finset.filter_subset _ _)

theorem bfsAux_isSome_find (g : Graph) (root : String) :
    (bfsAux g (fuelBound g) [(root, none)] [root]).isSome := by
  apply bfsAux_total
  have := unseenCount_le g [(root, none)]
  unfold fuelBound
  simp only [List.length_singleton]
  omega

theorem find_eq_bfsAux {g : Graph} {root : String}
    (hroot : (alookup root g).isSome) :
    ∃ pm, bfsAux g (fuelBound g) [(root, none)] [root] = some pm ∧
      find_shortest_path_tree g root = pm := by
  obtain ⟨pm, hpm⟩ := Option.isSome_iff_exists.mp (bfsAux_isSome_find g root)
  refine ⟨pm, hpm, ?_⟩
  unfold find_shortest_path_tree
  rw [if_pos hroot, hpm]
  rfl

/-! ## Distance lemmas -/

theorem pathLen_zero {g : Graph} {s n : String} (h : PathLen g s n 0) : n = s := by
  cases h
  rfl

theorem isDist_root (g : Graph) (s : String) : IsDist g s s 0 :=
  ⟨PathLen.refl, fun j _ => Nat.zero_le j⟩

theorem reachable_isDist {g : Graph} {s n : String} (h : Reachable g s n) :
    ∃ d, IsDist g s n d := by
  classical
  obtain ⟨k, hk⟩ := h
  have hP : ∃ j, PathLen g s n j := ⟨k, hk⟩
  exact ⟨Nat.find hP, Nat.find_spec hP, fun j hj => Nat.find_min' hP hj⟩

theorem isDist_unique {g : Graph} {s n : String} {d₁ d₂ : Nat}
    (h₁ : IsDist g s n d₁) (h₂ : IsDist g s n d₂) : d₁ = d₂ :=
  Nat.le_antisymm (h₁.2 d₂ h₂.1) (h₂.2 d₁ h₁.1)

theorem isDist_adj_le {g : Graph} {s u v : String} {du : Nat}
    (hu : IsDist g s u du) (hadj : Adj g u v) :
    ∃ dv, IsDist g s v dv ∧ dv ≤ du + 1 := by
  have hreach : Reachable g s v := ⟨du + 1, PathLen.step hu.1 hadj⟩
  obtain ⟨dv, hdv⟩ := reachable_isDist hreach
  exact ⟨dv, hdv, hdv.2 (du + 1) (PathLen.step hu.1 hadj)⟩

theorem isDist_succ_pred {g : Graph} {s n : String} {k : Nat}
    (h : IsDist g s n (k + 1)) :
    ∃ m, Adj g m n ∧ IsDist g s m k := by
  obtain ⟨hpath, hmin⟩ := h
  cases hpath with
  | step hm hadj =>
    rename_i m
    obtain ⟨dm, hdm⟩ := reachable_isDist ⟨_, hm⟩
    have hdmk : dm ≤ k := hdm.2 _ hm
    have : k + 1 ≤ dm + 1 := hmin (dm + 1) (PathLen.step hdm.1 hadj)
    have : dm = k := by omega
    subst this
    exact ⟨m, hadj, hdm⟩

/-! ## BFS loop invariant -/

theorem invAt_init (g : Graph) (root : String) :
    BfsInvAt g root [(root, none)] 0 [root] [] := by
  have hlook : ∀ n : String, alookup n ([(root, none)] : PredMap) =
      if root = n then some none else none := fun n => rfl
  refine ⟨?_, ?_, ?_, ?_, ?_, ?_, ?_, ?_, ?_, ?_⟩
  · simp [keys]
  · rw [hlook, if_pos rfl]
  · intro n hn
    rw [hlook] at hn
    by_cases h : root = n
    · exact h.symm
    · rw [if_neg h] at hn
      cases hn
  · intro n m hn
    rw [hlook] at hn
    by_cases h : root = n
    · rw [if_pos h] at hn
      cases hn
    · rw [if_neg h] at hn
      cases hn
  · intro n hn
    rw [hlook] at hn
    by_cases h : root = n
    · subst h
      exact ⟨0, PathLen.refl⟩
    · rw [if_neg h] at hn
      cases hn
  · intro n hn
    rcases List.mem_append.mp hn with hn | hn
    · rcases List.mem_singleton.mp hn with rfl
      rw [hlook, if_pos rfl]
      simp
    · cases hn
  · intro n hn
    rcases List.mem_singleton.mp hn with rfl
    exact isDist_root g _
  · intro n hn
    cases hn
  · intro n k hk hk0
    have : k = 0 := Nat.le_zero.mp hk0
    subst this
    have : n = root := pathLen_zero hk.1
    subst this
    rw [hlook, if_pos rfl]
    simp
  · intro u hu hnotin v hadj
    exfalso
    rw [hlook] at hu
    by_cases h : root = u
    · subst h
      exact hnotin (List.mem_append.mpr (Or.inl (List.mem_singleton.mpr rfl)))
    · rw [if_neg h] at hu
      simp at hu

theorem invAt_shift {g : Graph} {root : String} {pred : PredMap} {d0 : Nat}
    {back : List String} (h : BfsInvAt g root pred d0 [] back) :
    BfsInvAt g root pred (d0 + 1) back [] := by
  refine ⟨h.keys_nodup, h.root_mem, h.root_only_none, h.entry_dist, h.keys_reach,
    ?_, ?_, ?_, ?_, ?_⟩
  · intro n hn
    rw [List.append_nil] at hn
    exact h.queue_sub n (List.mem_append.mpr (Or.inr hn))
  · exact h.back_dist
  · intro n hn
    cases hn
  · intro n k hk hkle
    rcases Nat.lt_or_ge k (d0 + 1) with hlt | hge
    · exact h.complete n k hk (Nat.lt_succ_iff.mp hlt)
    · have hkeq : k = d0 + 1 := Nat.le_antisymm hkle hge
      subst hkeq
      obtain ⟨m, hadj, hm⟩ := isDist_succ_pred hk
      have hmpres : (alookup m pred).isSome := h.complete m d0 hm (Nat.le_refl d0)
      have hmnotin : m ∉ ([] : List String) ++ back := by
        intro hmem
        rw [List.nil_append] at hmem
        have := h.back_dist m hmem
        have := isDist_unique hm this
        omega
      exact h.processed m hmpres hmnotin n hadj
  · intro u hu hnotin v hadj
    apply h.processed u hu ?_ v hadj
    intro hmem
    apply hnotin
    rw [List.nil_append] at hmem
    rw [List.append_nil]
    exact hmem

theorem invAt_step {g : Graph} {root c : String} {pred : PredMap} {d0 : Nat}
    {front back : List String} (h : BfsInvAt g root pred d0 (c :: front) back) :
    ∃ δ : List String,
      bfsVisit c (neighbors g c) pred (front ++ back) =
        (pred ++ δ.map (fun v => (v, some c)), front ++ back ++ δ) ∧
      BfsInvAt g root (pred ++ δ.map (fun v => (v, some c))) d0 front (back ++ δ) := by
  obtain ⟨δ, heq, hnd, hδ, hcov⟩ := bfsVisit_spec c (neighbors g c) pred (front ++ back)
  have hc_dist : IsDist g root c d0 := h.front_dist c (List.mem_cons_self c front)
  have hc_mem : (alookup c pred).isSome :=
    h.queue_sub c (List.mem_append.mpr (Or.inl (List.mem_cons_self c front)))
  have hδdist : ∀ v ∈ δ, IsDist g root v (d0 + 1) := by
    intro v hv
    obtain ⟨hvn, hvnone⟩ := hδ v hv
    have hadj : Adj g c v := hvn
    obtain ⟨dv, hdv, hle⟩ := isDist_adj_le hc_dist hadj
    have hgt : ¬ dv ≤ d0 := by
      intro hle0
      have := h.complete v dv hdv hle0
      rw [hvnone] at this
      simp at this
    have heqd : dv = d0 + 1 := by omega
    subst heqd
    exact hdv
  have hpres : ∀ x, (alookup x pred).isSome →
      alookup x (pred ++ δ.map (fun v => (v, some c))) = alookup x pred :=
    fun x hx => alookup_append_left hx _
  have hnew : ∀ x, alookup x pred = none →
      alookup x (pred ++ δ.map (fun v => (v, some c))) =
        if x ∈ δ then some (some c) else none := by
    intro x hx
    rw [alookup_append_right hx, alookup_map_pair]
  have hcases : ∀ x, (alookup x (pred ++ δ.map (fun v => (v, some c)))).isSome →
      (alookup x pred).isSome ∨ x ∈ δ := by
    intro x hx
    by_cases hp : (alookup x pred).isSome
    · exact Or.inl hp
    · have hxn : alookup x pred = none := by
        cases h' : alookup x pred with
        | none => rfl
        | some _ => rw [h'] at hp; simp at hp
      rw [hnew x hxn] at hx
      by_cases hm : x ∈ δ
      · exact Or.inr hm
      · rw [if_neg hm] at hx
        simp at hx
  have hδsome : ∀ x ∈ δ,
      alookup x (pred ++ δ.map (fun v => (v, some c))) = some (some c) := by
    intro x hx
    obtain ⟨-, hxnone⟩ := hδ x hx
    rw [hnew x hxnone, if_pos hx]
  refine ⟨δ, heq, ?_, ?_, ?_, ?_, ?_, ?_, ?_, ?_, ?_, ?_⟩
  · have hkeys : keys (pred ++ δ.map (fun v => (v, some c))) = keys pred ++ δ := by
      unfold keys
      rw [List.map_append, List.map_map]
      congr 1
      exact List.map_id δ
    rw [hkeys, List.nodup_append]
    refine ⟨h.keys_nodup, hnd, ?_⟩
    intro a ha ha'
    obtain ⟨-, hanone⟩ := hδ a ha'
    have := (mem_keys_iff a pred).mp ha
    rw [hanone] at this
    simp at this
  · rw [hpres root (by simp [h.root_mem])]
    exact h.root_mem
  · intro n hn
    by_cases hp : (alookup n pred).isSome
    · rw [hpres n hp] at hn
      exact h.root_only_none n hn
    · have hxn : alookup n pred = none := by
        cases h' : alookup n pred with
        | none => rfl
        | some _ => rw [h'] at hp; simp at hp
      rw [hnew n hxn] at hn
      by_cases hm : n ∈ δ
      · rw [if_pos hm] at hn
        cases hn
      · rw [if_neg hm] at hn
        cases hn
  · intro n m hn
    by_cases hp : (alookup n pred).isSome
    · rw [hpres n hp] at hn
      obtain ⟨hadj, hmm, hk⟩ := h.entry_dist n m hn
      exact ⟨hadj, by rw [hpres m hmm]; exact hmm, hk⟩
    · have hxn : alookup n pred = none := by
        cases h' : alookup n pred with
        | none => rfl
        | some _ => rw [h'] at hp; simp at hp
      rw [hnew n hxn] at hn
      by_cases hm : n ∈ δ
      · rw [if_pos hm] at hn
        injection hn with hn
        injection hn with hn
        subst hn
        obtain ⟨hvn, -⟩ := hδ n hm
        refine ⟨hvn, ?_, d0, hc_dist, hδdist n hm⟩
        rw [hpres c hc_mem]
        exact hc_mem
      · rw [if_neg hm] at hn
        cases hn
  · intro n hn
    rcases hcases n hn with hp | hm
    · exact h.keys_reach n hp
    · exact ⟨d0 + 1, (hδdist n hm).1⟩
  · intro n hn
    rcases List.mem_append.mp hn with hf | hbd
    · have hp : (alookup n pred).isSome := h.queue_sub n
        (List.mem_append.mpr (Or.inl (List.mem_cons_of_mem c hf)))
      rw [hpres n hp]
      exact hp
    · rcases List.mem_append.mp hbd with hb | hd
      · have hp : (alookup n pred).isSome := h.queue_sub n (List.mem_append.mpr (Or.inr hb))
        rw [hpres n hp]
        exact hp
      · rw [hδsome n hd]
        simp
  · intro n hn
    exact h.front_dist n (List.mem_cons_of_mem c hn)
  · intro n hn
    rcases List.mem_append.mp hn with hb | hd
    · exact h.back_dist n hb
    · exact hδdist n hd
  · intro n k hk hkle
    have hp := h.complete n k hk hkle
    rw [hpres n hp]
    exact hp
  · intro u hu hnotin v hadj
    rcases hcases u hu with hup | humem
    · by_cases huc : u = c
      · subst huc
        exact hcov v hadj
      · have hunot : u ∉ (c :: front) ++ back := by
          intro hmem
          rcases List.mem_append.mp hmem with hmem | hmem
          · rcases List.mem_cons.mp hmem with rfl | hmem'
            · exact huc rfl
            · exact hnotin (List.mem_append.mpr (Or.inl hmem'))
          · exact hnotin (List.mem_append.mpr (Or.inr (List.mem_append.mpr (Or.inl hmem))))
        have hv := h.processed u hup hunot v hadj
        rw [hpres v hv]
        exact hv
    · exfalso
      exact hnotin (List.mem_append.mpr (Or.inr (List.mem_append.mpr (Or.inr humem))))

theorem bfsAux_inv (g : Graph) (root : String) :
    ∀ (fuel : Nat) (pred : PredMap) (queue : List String) (pm : PredMap),
      BfsInv g root pred queue → bfsAux g fuel pred queue = some pm →
      BfsInv g root pm [] := by
  intro fuel
  induction fuel with
  | zero =>
    intro pred queue pm hinv heq
    cases queue with
    | nil =>
      rw [bfsAux] at heq
      injection heq with heq
      subst heq
      exact hinv
    | cons c rest => cases heq
  | succ fuel ih =>
    intro pred queue pm hinv heq
    cases queue with
    | nil =>
      rw [bfsAux] at heq
      injection heq with heq
      subst heq
      exact hinv
    | cons c rest =>
      obtain ⟨d0, front, back, hqeq, hat⟩ := hinv
      cases front with
      | nil =>
        rw [List.nil_append] at hqeq
        subst hqeq
        have hat' := invAt_shift hat
        obtain ⟨δ, hvq, hat2⟩ := invAt_step hat'
        simp only [List.append_nil] at hvq
        simp only [List.nil_append] at hat2
        rw [bfsAux] at heq
        rw [hvq] at heq
        exact ih _ _ pm ⟨d0 + 1, rest, δ, rfl, hat2⟩ heq
      | cons f front' =>
        rw [List.cons_append] at hqeq
        injection hqeq with h1 h2
        subst h1
        subst h2
        obtain ⟨δ, hvq, hat2⟩ := invAt_step hat
        rw [bfsAux] at heq
        rw [hvq] at heq
        exact ih _ _ pm ⟨d0, front', back ++ δ, List.append_assoc _ _ _, hat2⟩ heq

theorem find_inv {g : Graph} {root : String} (hroot : (alookup root g).isSome) :
    BfsInv g root (find_shortest_path_tree g root) [] := by
  obtain ⟨pm, hpm, hfind⟩ := find_eq_bfsAux hroot
  rw [hfind]
  exact bfsAux_inv g root (fuelBound g) [(root, none)] [root] pm
    ⟨0, [root], [], rfl, invAt_init g root⟩ hpm

theorem bfsInv_nil_invAt {g : Graph} {root : String} {pm : PredMap}
    (hinv : BfsInv g root pm []) : ∃ d0, BfsInvAt g root pm d0 [] [] := by
  obtain ⟨d0, front, back, hq, hat⟩ := hinv
  obtain ⟨rfl, rfl⟩ := List.append_eq_nil.mp hq.symm
  exact ⟨d0, hat⟩

theorem final_keys_iff {g : Graph} {root : String} {pm : PredMap} {d0 : Nat}
    (hat : BfsInvAt g root pm d0 [] []) (n : String) :
    (alookup n pm).isSome ↔ Reachable g root n := by
  constructor
  · exact hat.keys_reach n
  · rintro ⟨k, hk⟩
    induction hk with
    | refl => simp [hat.root_mem]
    | step hm hadj ihm =>
      exact hat.processed _ ihm (by simp) _ hadj

theorem final_chainLen {g : Graph} {root : String} {pm : PredMap} {d0 : Nat}
    (hat : BfsInvAt g root pm d0 [] []) :
    ∀ (d : Nat) (n : String), IsDist g root n d →
      ∀ f, d < f → predChainLen pm f n = some d := by
  intro d
  induction d with
  | zero =>
    intro n hn f hf
    have hnr : n = root := pathLen_zero hn.1
    subst hnr
    cases f with
    | zero => omega
    | succ f =>
      rw [predChainLen, hat.root_mem]
  | succ d ihd =>
    intro n hn f hf
    have hreach : Reachable g root n := ⟨d + 1, hn.1⟩
    have hmem : (alookup n pm).isSome := (final_keys_iff hat n).mpr hreach
    cases hv : alookup n pm with
    | none => rw [hv] at hmem; simp at hmem
    | some v =>
      cases v with
      | none =>
        have hnr : n = root := hat.root_only_none n hv
        have h0 : IsDist g root root 0 := isDist_root g root
        rw [hnr] at hn
        have := isDist_unique hn h0
        omega
      | some m =>
        obtain ⟨hadj, hmm, k, hmk, hnk⟩ := hat.entry_dist n m hv
        have hkd : k + 1 = d + 1 := isDist_unique hnk hn
        have hkd' : k = d := by omega
        subst hkd'
        cases f with
        | zero => omega
        | succ f =>
          rw [predChainLen, hv]
          show Option.map (fun x => x + 1) (predChainLen pm f m) = some (k + 1)
          rw [ihd m hmk f (by omega)]
          rfl

theorem final_chain_nodes {g : Graph} {root : String} {pm : PredMap} {d0 : Nat}
    (hat : BfsInvAt g root pm d0 [] []) :
    ∀ (d : Nat) (n : String), IsDist g root n d →
      ∃ cs : List String, cs.Nodup ∧ (∀ x ∈ cs, (alookup x pm).isSome) ∧
        cs.length = d + 1 ∧ (∀ x ∈ cs, ∃ k, k ≤ d ∧ IsDist g root x k) := by
  intro d
  induction d with
  | zero =>
    intro n hn
    have hnr : n = root := pathLen_zero hn.1
    subst hnr
    refine ⟨[n], List.nodup_singleton n, ?_, rfl, ?_⟩
    · intro x hx
      rcases List.mem_singleton.mp hx with rfl
      simp [hat.root_mem]
    · intro x hx
      rcases List.mem_singleton.mp hx with rfl
      exact ⟨0, Nat.le_refl 0, hn⟩
  | succ d ihd =>
    intro n hn
    have hreach : Reachable g root n := ⟨d + 1, hn.1⟩
    have hmem : (alookup n pm).isSome := (final_keys_iff hat n).mpr hreach
    obtain ⟨m, hadj, hm⟩ := isDist_succ_pred hn
    obtain ⟨cs, hnd, hcs, hlen, hdist⟩ := ihd m hm
    have hnmem : n ∉ cs := by
      intro hmem'
      obtain ⟨k, hk, hkd⟩ := hdist n hmem'
      have := isDist_unique hn hkd
      omega
    refine ⟨n :: cs, List.nodup_cons.mpr ⟨hnmem, hnd⟩, ?_, ?_, ?_⟩
    · intro x hx
      rcases List.mem_cons.mp hx with rfl | hx'
      · exact hmem
      · exact hcs x hx'
    · rw [List.length_cons, hlen]
    · intro x hx
      rcases List.mem_cons.mp hx with rfl | hx'
      · exact ⟨d + 1, Nat.le_refl _, hn⟩
      · obtain ⟨k, hk, hkd⟩ := hdist x hx'
        exact ⟨k, Nat.le_succ_of_le hk, hkd⟩

theorem final_dist_lt_length {g : Graph} {root : String} {pm : PredMap} {d0 : Nat}
    (hat : BfsInvAt g root pm d0 [] []) {d : Nat} {n : String}
    (hn : IsDist g root n d) : d < pm.length := by
  obtain ⟨cs, hnd, hcs, hlen, -⟩ := final_chain_nodes hat d n hn
  have hsub : cs ⊆ keys pm := by
    intro x hx
    exact (mem_keys_iff x pm).mpr (hcs x hx)
  have hle : cs.length ≤ (keys pm).length :=
    List.Subperm.length_le (List.subperm_of_subset hnd hsub)
  have hkl : (keys pm).length = pm.length := List.length_map pm Prod.fst
  omega

/-! ## Derived facts about `find_shortest_path_tree` -/

theorem bfsAux_preserves (g : Graph) :
    ∀ (fuel : Nat) (pred : PredMap) (q : List String) (pm : PredMap)
      (k : String) (x : Option String),
      alookup k pred = some x → bfsAux g fuel pred q = some pm →
      alookup k pm = some x := by
  intro fuel
  induction fuel with
  | zero =>
    intro pred q pm k x hk heq
    cases q with
    | nil =>
      rw [bfsAux] at heq
      injection heq with heq
      subst heq
      exact hk
    | cons c rest => cases heq
  | succ fuel ih =>
    intro pred q pm k x hk heq
    cases q with
    | nil =>
      rw [bfsAux] at heq
      injection heq with heq
      subst heq
      exact hk
    | cons c rest =>
      rw [bfsAux] at heq
      obtain ⟨δ, hvq, -, -, -⟩ := bfsVisit_spec c (neighbors g c) pred rest
      rw [hvq] at heq
      have hk' : alookup k (pred ++ δ.map fun v => (v, some c)) = some x := by
        rw [alookup_append_left (by rw [hk]; rfl : (alookup k pred).isSome = true) _]
        exact hk
      exact ih _ _ pm k x hk' heq

theorem find_root_entry {g : Graph} {root : String}
    (hroot : (alookup root g).isSome) :
    alookup root (find_shortest_path_tree g root) = some none := by
  obtain ⟨pm, hpm, hfind⟩ := find_eq_bfsAux hroot
  rw [hfind]
  exact bfsAux_preserves g (fuelBound g) [(root, none)] [root] pm root none
    (by rw [alookup_cons, if_pos rfl]) hpm

theorem find_ne_nil {g : Graph} {root : String}
    (hroot : (alookup root g).isSome) :
    find_shortest_path_tree g root ≠ [] := by
  intro hnil
  have := find_root_entry hroot
  rw [hnil] at this
  cases this

theorem find_of_absent {g : Graph} {root : String}
    (hroot : ¬ (alookup root g).isSome) :
    find_shortest_path_tree g root = [] := by
  unfold find_shortest_path_tree
  rw [if_neg hroot]

theorem fuelBound_succ (g : Graph) : fuelBound g = 2 * (namesF g).card + 1 := by
  unfold fuelBound
  omega

theorem find_root_neighbor {g : Graph} {root v : String}
    (hroot : (alookup root g).isSome) (hv : v ∈ neighbors g root) (hne : v ≠ root) :
    alookup v (find_shortest_path_tree g root) = some (some root) := by
  obtain ⟨pm, hpm, hfind⟩ := find_eq_bfsAux hroot
  rw [hfind]
  rw [fuelBound_succ] at hpm
  rw [bfsAux] at hpm
  obtain ⟨δ, hvq, -, hδ, hcov⟩ :=
    bfsVisit_spec root (neighbors g root) [(root, none)] []
  rw [hvq] at hpm
  have hvnone : alookup v ([(root, none)] : PredMap) = none := by
    rw [alookup_cons, if_neg (fun h => hne h.symm)]
    rfl
  have hvsome := hcov v hv
  rw [alookup_append_right hvnone, alookup_map_pair] at hvsome
  by_cases hmem : v ∈ δ
  · have hvval : alookup v ([(root, none)] ++ δ.map fun w => (w, some root)) =
        some (some root) := by
      rw [alookup_append_right hvnone, alookup_map_pair, if_pos hmem]
    exact bfsAux_preserves g _ _ _ pm v (some root) hvval hpm
  · rw [if_neg hmem] at hvsome
    simp at hvsome

theorem reachable_mem_of_closed {g : Graph} {root n : String}
    (hc : ClosedGraph g) (hroot : (alookup root g).isSome)
    (hr : Reachable g root n) : (alookup n g).isSome := by
  obtain ⟨k, hk⟩ := hr
  induction hk with
  | refl => exact hroot
  | step hm hadj ihm => exact (hc _ _ hadj).2

/-! ## Lemmas about `predGet` and the marking pass -/

theorem predGet_some_iff (pred : PredMap) (x y : String) :
    predGet pred x = some y ↔ alookup x pred = some (some y) := by
  unfold predGet
  cases h : alookup x pred with
  | none => simp
  | some v => cases v <;> simp

theorem predGet_root {pred : PredMap} {root : String}
    (h : alookup root pred = some none) : predGet pred root = none := by
  unfold predGet
  rw [h]

theorem isEmpty_eq_false_of_ne_nil {α : Type} {l : List α} (h : l ≠ []) :
    l.isEmpty = false := by
  cases l with
  | nil => exact absurd rfl h
  | cons a l => rfl

theorem mark_with_graph_get (data : List Card) (g : Graph) (root : String)
    (h : find_shortest_path_tree g root ≠ []) (i : Nat) :
    (mark_with_graph data g root).get? i =
      (data.get? i).map (markCard (find_shortest_path_tree g root)) := by
  unfold mark_with_graph
  show (if (find_shortest_path_tree g root).isEmpty = true then data
    else data.map (markCard (find_shortest_path_tree g root))).get? i = _
  rw [isEmpty_eq_false_of_ne_nil h]
  simp only [Bool.false_eq_true, if_false]
  exact List.get?_map _ _ _

theorem mark_direct_lineage_get {data : List Card} {root : String}
    (h : (alookup root (build_family_graph data)).isSome) (i : Nat) :
    (mark_direct_lineage data root).get? i =
      (data.get? i).map
        (markCard (find_shortest_path_tree (build_family_graph data) root)) := by
  unfold mark_direct_lineage
  exact mark_with_graph_get data _ root (find_ne_nil h) i

theorem mark_direct_lineage_absent {data : List Card} {root : String}
    (h : ¬ (alookup root (build_family_graph data)).isSome) :
    mark_direct_lineage data root = data := by
  unfold mark_direct_lineage mark_with_graph
  rw [find_of_absent h]
  rfl

/-! ## Marking helpers -/

theorem star_append_ne (s : String) : "*" ++ s ≠ s := by
  intro h
  have hl := congrArg String.length h
  rw [String.length_append] at hl
  have : "*".length = 1 := rfl
  omega

theorem markParentField_some (P : PredMap) (person f : String) :
    markParentField P person (some f) =
      if f ≠ "" ∧ (predGet P person = some f ∨ predGet P f = some person)
      then some ("*" ++ f) else some f := rfl

theorem markParentField_marked_iff (P : PredMap) (person f : String) :
    markParentField P person (some f) = some ("*" ++ f) ↔
      (f ≠ "" ∧ (predGet P person = some f ∨ predGet P f = some person)) := by
  rw [markParentField_some]
  by_cases hcond : f ≠ "" ∧ (predGet P person = some f ∨ predGet P f = some person)
  · rw [if_pos hcond]
    exact ⟨fun _ => hcond, fun _ => rfl⟩
  · rw [if_neg hcond]
    constructor
    · intro h
      injection h with h
      exact absurd h.symm (star_append_ne f)
    · intro h
      exact absurd h hcond

theorem markParentField_unmarked (P : PredMap) (person f : String)
    (h : ¬ (f ≠ "" ∧ (predGet P person = some f ∨ predGet P f = some person))) :
    markParentField P person (some f) = some f := by
  rw [markParentField_some, if_neg h]

theorem markChild_eq (P : PredMap) (person ch : String) :
    markChild P person ch =
      if predGet P ch = some person ∨ predGet P person = some ch
      then "*" ++ ch else ch := rfl

theorem markChild_marked_iff (P : PredMap) (person ch : String) :
    markChild P person ch = "*" ++ ch ↔
      (predGet P ch = some person ∨ predGet P person = some ch) := by
  rw [markChild_eq]
  by_cases hcond : predGet P ch = some person ∨ predGet P person = some ch
  · rw [if_pos hcond]
    exact ⟨fun _ => hcond, fun _ => rfl⟩
  · rw [if_neg hcond]
    constructor
    · intro h
      exact absurd h.symm (star_append_ne ch)
    · intro h
      exact absurd h hcond

theorem markChild_unmarked (P : PredMap) (person ch : String)
    (h : ¬ (predGet P ch = some person ∨ predGet P person = some ch)) :
    markChild P person ch = ch := by
  rw [markChild_eq, if_neg h]

theorem predGet_nil (x : String) : predGet [] x = none := rfl

theorem markCard_Father (P : PredMap) (c : Card) :
    (markCard P c).Father = markParentField P c.Name c.Father := rfl

theorem markCard_Mother (P : PredMap) (c : Card) :
    (markCard P c).Mother = markParentField P c.Name c.Mother := rfl

theorem markCard_Children (P : PredMap) (c : Card) :
    (markCard P c).Children =
      some ((c.Children.getD []).map (markChild P c.Name)) := rfl

theorem markCard_Name (P : PredMap) (c : Card) : (markCard P c).Name = c.Name := rfl

theorem markCard_extra (P : PredMap) (c : Card) : (markCard P c).extra = c.extra := rfl

theorem bfsAux_fuel_mono (g : Graph) :
    ∀ (fuel : Nat) (pred : PredMap) (q : List String) (pm : PredMap),
      bfsAux g fuel pred q = some pm →
      ∀ fuel₂, fuel ≤ fuel₂ → bfsAux g fuel₂ pred q = some pm := by
  intro fuel
  induction fuel with
  | zero =>
    intro pred q pm heq fuel₂ hle
    cases q with
    | nil =>
      rw [bfsAux] at heq
      cases fuel₂ with
      | zero => exact heq
      | succ f => rw [bfsAux]; exact heq
    | cons c rest => cases heq
  | succ fuel ih =>
    intro pred q pm heq fuel₂ hle
    cases q with
    | nil =>
      rw [bfsAux] at heq
      cases fuel₂ with
      | zero => rw [bfsAux]; exact heq
      | succ f => rw [bfsAux]; exact heq
    | cons c rest =>
      rw [bfsAux] at heq
      cases fuel₂ with
      | zero => omega
      | succ f =>
        rw [bfsAux]
        exact ih _ _ pm heq f (by omega)

/-! ## Claims -/

/-- C1: for every graph built by `build_family_graph` and every root present
in it, `find_shortest_path_tree` returns a map whose keys are exactly the
nodes reachable from the root, with exactly one entry per discovered node
(duplicate-free keys), each entry's predecessor adjacent to it, only the
root mapped to the no-predecessor marker, and for every reachable node the
chain of predecessor links back to the root has length equal to the minimum
length over all paths in the graph; unreachable nodes are absent. -/
theorem find_shortest_path_tree_correct (data : List Card) (root : String)
    (hroot : (alookup root (build_family_graph data)).isSome) :
    (keys (find_shortest_path_tree (build_family_graph data) root)).Nodup ∧
    (∀ n, (alookup n (find_shortest_path_tree (build_family_graph data) root)).isSome ↔
      Reachable (build_family_graph data) root n) ∧
    (∀ n m, alookup n (find_shortest_path_tree (build_family_graph data) root) =
      some (some m) → Adj (build_family_graph data) m n) ∧
    (∀ n, alookup n (find_shortest_path_tree (build_family_graph data) root) =
      some none → n = root) ∧
    (∀ n, Reachable (build_family_graph data) root n →
      ∃ d, predChainLen (find_shortest_path_tree (build_family_graph data) root)
          (find_shortest_path_tree (build_family_graph data) root).length n = some d ∧
        IsDist (build_family_graph data) root n d) := by
  obtain ⟨d0, hat⟩ := bfsInv_nil_invAt (find_inv hroot)
  refine ⟨hat.keys_nodup, fun n => final_keys_iff hat n, ?_, hat.root_only_none, ?_⟩
  · intro n m hn
    exact (hat.entry_dist n m hn).1
  · intro n hr
    obtain ⟨d, hd⟩ := reachable_isDist hr
    exact ⟨d, final_chainLen hat d n hd _ (final_dist_lt_length hat hd), hd⟩

/-- Witness for C1 on the 14-person sample with root `"Bob"`. -/
theorem find_shortest_path_tree_correct_witness :
    (alookup "Bob" (build_family_graph sampleData)).isSome ∧
    ((keys (find_shortest_path_tree (build_family_graph sampleData) "Bob")).Nodup ∧
    (∀ n, (alookup n (find_shortest_path_tree (build_family_graph sampleData) "Bob")).isSome ↔
      Reachable (build_family_graph sampleData) "Bob" n) ∧
    (∀ n m, alookup n (find_shortest_path_tree (build_family_graph sampleData) "Bob") =
      some (some m) → Adj (build_family_graph sampleData) m n) ∧
    (∀ n, alookup n (find_shortest_path_tree (build_family_graph sampleData) "Bob") =
      some none → n = "Bob") ∧
    (∀ n, Reachable (build_family_graph sampleData) "Bob" n →
      ∃ d, predChainLen (find_shortest_path_tree (build_family_graph sampleData) "Bob")
          (find_shortest_path_tree (build_family_graph sampleData) "Bob").length n = some d ∧
        IsDist (build_family_graph sampleData) "Bob" n d)) :=
  ⟨by decide, find_shortest_path_tree_correct sampleData "Bob" (by decide)⟩

/-- C3: when the root is not a node of the graph built from the records,
`find_shortest_path_tree` returns the empty map and `mark_direct_lineage`
returns the input records unchanged (the warning is a print, not an
exception; both functions are total). -/
theorem root_not_found_soft (data : List Card) (root : String)
    (h : ¬ (alookup root (build_family_graph data)).isSome) :
    find_shortest_path_tree (build_family_graph data) root = [] ∧
    mark_direct_lineage data root = data :=
  ⟨find_of_absent h, mark_direct_lineage_absent h⟩

/-- Witness for C3: root `"Zelda"` is absent from the sample records. -/
theorem root_not_found_soft_witness :
    ¬ (alookup "Zelda" (build_family_graph sampleData)).isSome ∧
    (find_shortest_path_tree (build_family_graph sampleData) "Zelda" = [] ∧
      mark_direct_lineage sampleData "Zelda" = sampleData) :=
  ⟨by decide, root_not_found_soft sampleData "Zelda" (by decide)⟩

/-- C6: every edge inserted by `build_family_graph` as a parent or child
relation of some record is present in both neighbour sets. -/
theorem build_family_graph_symmetric (data : List Card) (a b : String)
    (h : ∃ c, c ∈ data ∧ cardEdges c a b) :
    Adj (build_family_graph data) a b ∧ Adj (build_family_graph data) b a := by
  refine ⟨(adj_build data a b).mpr h, (adj_build data b a).mpr ?_⟩
  obtain ⟨c, hm, he⟩ := h
  exact ⟨c, hm, (cardEdges_symm c a b).mp he⟩

/-- Witness for C6: the Bob–Charlie father edge of the sample. -/
theorem build_family_graph_symmetric_witness :
    (∃ c, c ∈ sampleData ∧ cardEdges c "Bob" "Charlie") ∧
    (Adj (build_family_graph sampleData) "Bob" "Charlie" ∧
      Adj (build_family_graph sampleData) "Charlie" "Bob") := by
  have h : ∃ c, c ∈ sampleData ∧ cardEdges c "Bob" "Charlie" :=
    ⟨⟨"Bob", some "Charlie", some "Eve", some [], []⟩, by decide,
      Or.inl ⟨"Charlie", Or.inl rfl, by decide, by decide, Or.inl ⟨rfl, rfl⟩⟩⟩
  exact ⟨h, build_family_graph_symmetric sampleData "Bob" "Charlie" h⟩

/-- C8: the BFS loop drains its queue within the fixed fuel for every graph
and root (each node is enqueued at most once, so `fuelBound` iterations
suffice), and giving the loop any more fuel changes nothing. -/
theorem bfs_terminates (g : Graph) (root : String) :
    (bfsAux g (fuelBound g) [(root, none)] [root]).isSome ∧
    ∀ fuel, fuelBound g ≤ fuel →
      bfsAux g fuel [(root, none)] [root] =
        bfsAux g (fuelBound g) [(root, none)] [root] := by
  obtain ⟨pm, hpm⟩ := Option.isSome_iff_exists.mp (bfsAux_isSome_find g root)
  refine ⟨by rw [hpm]; rfl, ?_⟩
  intro fuel hfuel
  rw [hpm]
  exact bfsAux_fuel_mono g (fuelBound g) _ _ pm hpm fuel hfuel

/-- C10: with the root present, every output record of `mark_direct_lineage`
is the input record with a fresh `Children` list (always present, built by
the per-child marking map — so a record without a `Children` key gains
`Children := []`), while all fields other than `Father`, `Mother` and
`Children` keep their original values. -/
theorem mark_children_field_fresh (data : List Card) (root : String)
    (hroot : (alookup root (build_family_graph data)).isSome)
    (i : Nat) (c : Card) (hc : data.get? i = some c) :
    ∃ oc, (mark_direct_lineage data root).get? i = some oc ∧
      oc.Name = c.Name ∧ oc.extra = c.extra ∧
      oc.Children = some ((c.Children.getD []).map
        (markChild (find_shortest_path_tree (build_family_graph data) root) c.Name)) ∧
      (c.Children = none → oc.Children = some []) := by
  refine ⟨markCard (find_shortest_path_tree (build_family_graph data) root) c,
    ?_, rfl, rfl, rfl, ?_⟩
  · rw [mark_direct_lineage_get hroot i, hc]
    rfl
  · intro hnone
    rw [markCard_Children, hnone]
    rfl

/-- Witness for C10: a single record with no `Children` key gains
`Children := []`. -/
theorem mark_children_field_fresh_witness :
    (alookup "A" (build_family_graph dataSoleRecord)).isSome ∧
    dataSoleRecord.get? 0 = some ⟨"A", none, none, none, []⟩ ∧
    (∃ oc, (mark_direct_lineage dataSoleRecord "A").get? 0 = some oc ∧
      oc.Name = (⟨"A", none, none, none, []⟩ : Card).Name ∧
      oc.extra = (⟨"A", none, none, none, []⟩ : Card).extra ∧
      oc.Children = some (((⟨"A", none, none, none, []⟩ : Card).Children.getD []).map
        (markChild (find_shortest_path_tree (build_family_graph dataSoleRecord) "A")
          (⟨"A", none, none, none, []⟩ : Card).Name)) ∧
      ((⟨"A", none, none, none, []⟩ : Card).Children = none → oc.Children = some [])) :=
  ⟨by decide, by decide,
    mark_children_field_fresh dataSoleRecord "A" (by decide) 0 _ (by decide)⟩

/-- C7: on the sample dataset with root `"Bob"`, for every neighbour
iteration order of the graph's neighbour sets, the output record for Bob has
`Father = "*Charlie"` and `Mother = "*Eve"` (both parents are one BFS hop
from the root); `mark_direct_lineage data root` is by definition
`mark_with_graph data (build_family_graph data) root`. -/
theorem sample_bob_parents_marked (g' : Graph)
    (h : SameGraphUpToOrder (build_family_graph sampleData) g') :
    mark_direct_lineage sampleData "Bob" =
      mark_with_graph sampleData (build_family_graph sampleData) "Bob" ∧
    ∃ oc, (mark_with_graph sampleData g' "Bob").get? 1 = some oc ∧
      oc.Name = "Bob" ∧ oc.Father = some "*Charlie" ∧ oc.Mother = some "*Eve" := by
  refine ⟨rfl, ?_⟩
  have hb : (alookup "Bob" (build_family_graph sampleData)).isSome := by decide
  have hb' : (alookup "Bob" g').isSome := (h "Bob").1.mpr hb
  have hch : "Charlie" ∈ neighbors g' "Bob" := ((h "Bob").2).mem_iff.mpr (by decide)
  have hev : "Eve" ∈ neighbors g' "Bob" := ((h "Bob").2).mem_iff.mpr (by decide)
  have hce := find_root_neighbor hb' hch (by decide)
  have hee := find_root_neighbor hb' hev (by decide)
  have hne := find_ne_nil hb'
  refine ⟨markCard (find_shortest_path_tree g' "Bob")
    (⟨"Bob", some "Charlie", some "Eve", some [], []⟩ : Card), ?_, rfl, ?_, ?_⟩
  · rw [mark_with_graph_get sampleData g' "Bob" hne 1]
    have hs : sampleData.get? 1 =
        some (⟨"Bob", some "Charlie", some "Eve", some [], []⟩ : Card) := by decide
    rw [hs]
    rfl
  · rw [markCard_Father]
    have hpg : predGet (find_shortest_path_tree g' "Bob") "Charlie" = some "Bob" := by
      unfold predGet
      rw [hce]
    show markParentField (find_shortest_path_tree g' "Bob") "Bob" (some "Charlie") =
      some "*Charlie"
    rw [markParentField_some, if_pos ⟨by decide, Or.inr hpg⟩]
    rfl
  · rw [markCard_Mother]
    have hpg : predGet (find_shortest_path_tree g' "Bob") "Eve" = some "Bob" := by
      unfold predGet
      rw [hee]
    show markParentField (find_shortest_path_tree g' "Bob") "Bob" (some "Eve") =
      some "*Eve"
    rw [markParentField_some, if_pos ⟨by decide, Or.inr hpg⟩]
    rfl

/-- Witness for C7: the canonical neighbour order of the built graph. -/
theorem sample_bob_parents_marked_witness :
    SameGraphUpToOrder (build_family_graph sampleData) (build_family_graph sampleData) ∧
    (mark_direct_lineage sampleData "Bob" =
      mark_with_graph sampleData (build_family_graph sampleData) "Bob" ∧
    ∃ oc, (mark_with_graph sampleData (build_family_graph sampleData) "Bob").get? 1 =
        some oc ∧
      oc.Name = "Bob" ∧ oc.Father = some "*Charlie" ∧ oc.Mother = some "*Eve") := by
  have h : SameGraphUpToOrder (build_family_graph sampleData)
      (build_family_graph sampleData) := fun k => ⟨Iff.rfl, List.Perm.refl _⟩
  exact ⟨h, sample_bob_parents_marked (build_family_graph sampleData) h⟩

/-- C2 counterexample: in `dataEmptyFather` with root `"A"`, the record for
`"A"` has father `""`, and the predecessor of `""` is `"A"` — the claim's
marking condition holds — yet the output `Father` field is NOT marked,
because the empty string is falsy under Python's `if father and (...)`
guard. -/
theorem mark_father_iff_fails :
    predGet (find_shortest_path_tree (build_family_graph dataEmptyFather) "A") "" =
      some "A" ∧
    dataEmptyFather.get? 1 = some ⟨"A", some "", none, none, []⟩ ∧
    (mark_direct_lineage dataEmptyFather "A").get? 1 =
      some ⟨"A", some "", none, some [], []⟩ := by decide

/-- C2 amended: the father/mother marking rule needs Python's truthiness
guard — with `Father = some f`, the output field is `*f` iff `f` is
nonempty and (the predecessor of the record's name is `f`, or the
predecessor of `f` is the record's name) — and the children rule holds
exactly as claimed; unmarked fields pass through unchanged. -/
theorem mark_direct_lineage_marking_iff (data : List Card) (root : String)
    (i : Nat) (c : Card) (hc : data.get? i = some c) :
    ∃ oc, (mark_direct_lineage data root).get? i = some oc ∧
      (∀ f, c.Father = some f →
        ((oc.Father = some ("*" ++ f)) ↔
          (f ≠ "" ∧
            (predGet (find_shortest_path_tree (build_family_graph data) root)
                c.Name = some f ∨
             predGet (find_shortest_path_tree (build_family_graph data) root)
                f = some c.Name))) ∧
        (¬ (f ≠ "" ∧
            (predGet (find_shortest_path_tree (build_family_graph data) root)
                c.Name = some f ∨
             predGet (find_shortest_path_tree (build_family_graph data) root)
                f = some c.Name)) → oc.Father = some f)) ∧
      (∀ f, c.Mother = some f →
        ((oc.Mother = some ("*" ++ f)) ↔
          (f ≠ "" ∧
            (predGet (find_shortest_path_tree (build_family_graph data) root)
                c.Name = some f ∨
             predGet (find_shortest_path_tree (build_family_graph data) root)
                f = some c.Name))) ∧
        (¬ (f ≠ "" ∧
            (predGet (find_shortest_path_tree (build_family_graph data) root)
                c.Name = some f ∨
             predGet (find_shortest_path_tree (build_family_graph data) root)
                f = some c.Name)) → oc.Mother = some f)) ∧
      (∀ j ch, (c.Children.getD []).get? j = some ch →
        ∃ och, (oc.Children.getD []).get? j = some och ∧
          ((och = "*" ++ ch) ↔
            (predGet (find_shortest_path_tree (build_family_graph data) root)
                ch = some c.Name ∨
             predGet (find_shortest_path_tree (build_family_graph data) root)
                c.Name = some ch)) ∧
          (¬ (predGet (find_shortest_path_tree (build_family_graph data) root)
                ch = some c.Name ∨
              predGet (find_shortest_path_tree (build_family_graph data) root)
                c.Name = some ch) → och = ch)) := by
  by_cases hroot : (alookup root (build_family_graph data)).isSome
  · refine ⟨markCard (find_shortest_path_tree (build_family_graph data) root) c,
      ?_, ?_, ?_, ?_⟩
    · rw [mark_direct_lineage_get hroot i, hc]
      rfl
    · intro f hf
      rw [markCard_Father, hf]
      exact ⟨markParentField_marked_iff _ c.Name f,
        fun hn => markParentField_unmarked _ c.Name f hn⟩
    · intro f hf
      rw [markCard_Mother, hf]
      exact ⟨markParentField_marked_iff _ c.Name f,
        fun hn => markParentField_unmarked _ c.Name f hn⟩
    · intro j ch hch
      refine ⟨markChild (find_shortest_path_tree (build_family_graph data) root)
        c.Name ch, ?_, markChild_marked_iff _ c.Name ch,
        fun hn => markChild_unmarked _ c.Name ch hn⟩
      rw [markCard_Children, Option.getD_some, List.get?_map, hch]
      rfl
  · have hP := find_of_absent hroot
    have hm := mark_direct_lineage_absent hroot
    refine ⟨c, by rw [hm, hc], ?_, ?_, ?_⟩
    · intro f hf
      constructor
      · rw [hf]
        constructor
        · intro h
          injection h with h
          exact absurd h.symm (star_append_ne f)
        · rintro ⟨-, hor | hor⟩ <;> rw [hP] at hor <;> cases hor
      · exact fun _ => hf
    · intro f hf
      constructor
      · rw [hf]
        constructor
        · intro h
          injection h with h
          exact absurd h.symm (star_append_ne f)
        · rintro ⟨-, hor | hor⟩ <;> rw [hP] at hor <;> cases hor
      · exact fun _ => hf
    · intro j ch hch
      refine ⟨ch, hch, ?_, fun _ => rfl⟩
      constructor
      · intro h
        exact absurd h.symm (star_append_ne ch)
      · rintro (hor | hor) <;> rw [hP] at hor <;> cases hor

/-- Witness for the amended C2, on the empty-string-father records. -/
theorem mark_direct_lineage_marking_iff_witness :
    dataEmptyFather.get? 1 = some ⟨"A", some "", none, none, []⟩ ∧
    (∃ oc, (mark_direct_lineage dataEmptyFather "A").get? 1 = some oc ∧
      (∀ f, (⟨"A", some "", none, none, []⟩ : Card).Father = some f →
        ((oc.Father = some ("*" ++ f)) ↔
          (f ≠ "" ∧
            (predGet (find_shortest_path_tree (build_family_graph dataEmptyFather) "A")
                (⟨"A", some "", none, none, []⟩ : Card).Name = some f ∨
             predGet (find_shortest_path_tree (build_family_graph dataEmptyFather) "A")
                f = some (⟨"A", some "", none, none, []⟩ : Card).Name))) ∧
        (¬ (f ≠ "" ∧
            (predGet (find_shortest_path_tree (build_family_graph dataEmptyFather) "A")
                (⟨"A", some "", none, none, []⟩ : Card).Name = some f ∨
             predGet (find_shortest_path_tree (build_family_graph dataEmptyFather) "A")
                f = some (⟨"A", some "", none, none, []⟩ : Card).Name)) →
          oc.Father = some f)) ∧
      (∀ f, (⟨"A", some "", none, none, []⟩ : Card).Mother = some f →
        ((oc.Mother = some ("*" ++ f)) ↔
          (f ≠ "" ∧
            (predGet (find_shortest_path_tree (build_family_graph dataEmptyFather) "A")
                (⟨"A", some "", none, none, []⟩ : Card).Name = some f ∨
             predGet (find_shortest_path_tree (build_family_graph dataEmptyFather) "A")
                f = some (⟨"A", some "", none, none, []⟩ : Card).Name))) ∧
        (¬ (f ≠ "" ∧
            (predGet (find_shortest_path_tree (build_family_graph dataEmptyFather) "A")
                (⟨"A", some "", none, none, []⟩ : Card).Name = some f ∨
             predGet (find_shortest_path_tree (build_family_graph dataEmptyFather) "A")
                f = some (⟨"A", some "", none, none, []⟩ : Card).Name)) →
          oc.Mother = some f)) ∧
      (∀ j ch, ((⟨"A", some "", none, none, []⟩ : Card).Children.getD []).get? j =
          some ch →
        ∃ och, (oc.Children.getD []).get? j = some och ∧
          ((och = "*" ++ ch) ↔
            (predGet (find_shortest_path_tree (build_family_graph dataEmptyFather) "A")
                ch = some (⟨"A", some "", none, none, []⟩ : Card).Name ∨
             predGet (find_shortest_path_tree (build_family_graph dataEmptyFather) "A")
                (⟨"A", some "", none, none, []⟩ : Card).Name = some ch)) ∧
          (¬ (predGet (find_shortest_path_tree (build_family_graph dataEmptyFather) "A")
                ch = some (⟨"A", some "", none, none, []⟩ : Card).Name ∨
              predGet (find_shortest_path_tree (build_family_graph dataEmptyFather) "A")
                (⟨"A", some "", none, none, []⟩ : Card).Name = some ch) → och = ch))) :=
  ⟨by decide, mark_direct_lineage_marking_iff dataEmptyFather "A" 1 _ (by decide)⟩

/-- C4 counterexample: `"Unknown"` can become a graph node through a
children list, after which a `Father = "Unknown"` field IS marked (the
truthiness guard in the marking pass does not re-check the sentinel). -/
theorem unknown_father_marked :
    dataUnknownChild.get? 0 = some ⟨"A", some "Unknown", none, some ["Unknown"], []⟩ ∧
    mark_direct_lineage dataUnknownChild "A" =
      [⟨"A", some "*Unknown", none, some ["*Unknown"], []⟩] := by decide

theorem addParentEdge_unknown (g : Graph) (person : String) :
    addParentEdge g person (some "Unknown") = g := by
  show (if "Unknown" = "" then g
    else if "Unknown" = "Unknown" then g
    else addUndirectedEdge g person "Unknown") = g
  rw [if_neg (by decide), if_pos rfl]

theorem addParentEdge_scrub (g : Graph) (person : String) (po : Option String) :
    addParentEdge g person (if po = some "Unknown" then none else po) =
      addParentEdge g person po := by
  by_cases h : po = some "Unknown"
  · rw [if_pos h, h, addParentEdge_unknown]
    rfl
  · rw [if_neg h]

theorem addCard_scrubUnknown (g : Graph) (c : Card) :
    addCard g (scrubUnknown c) = addCard g c := by
  show (((scrubUnknown c).Children.getD []).foldl
      (fun acc ch => addChildEdge acc (scrubUnknown c).Name ch)
      (addParentEdge
        (addParentEdge (setdefaultEmpty g (scrubUnknown c).Name)
          (scrubUnknown c).Name (scrubUnknown c).Father)
        (scrubUnknown c).Name (scrubUnknown c).Mother)) = addCard g c
  have hn : (scrubUnknown c).Name = c.Name := rfl
  have hch : (scrubUnknown c).Children = c.Children := rfl
  have hf : (scrubUnknown c).Father =
      (if c.Father = some "Unknown" then none else c.Father) := rfl
  have hm : (scrubUnknown c).Mother =
      (if c.Mother = some "Unknown" then none else c.Mother) := rfl
  rw [hn, hch, hf, hm, addParentEdge_scrub, addParentEdge_scrub]
  rfl

theorem build_scrubUnknown (data : List Card) :
    build_family_graph (data.map scrubUnknown) = build_family_graph data := by
  unfold build_family_graph
  rw [List.foldl_map]
  have h : ∀ (l : List Card) (g : Graph),
      l.foldl (fun acc c => addCard acc (scrubUnknown c)) g = l.foldl addCard g := by
    intro l
    induction l with
    | nil => intro g; rfl
    | cons c cs ih =>
      intro g
      rw [List.foldl_cons, List.foldl_cons, addCard_scrubUnknown]
      exact ih _
  exact h data []

/-- C4 amended: an `"Unknown"` father/mother contributes no graph edge
(scrubbing those fields to absent leaves the built graph unchanged), and
such a field is never marked PROVIDED `"Unknown"` is not itself a node of
the graph — without that proviso the claim fails, since a children entry
can introduce an `"Unknown"` node. -/
theorem unknown_parent_no_edge_no_mark (data : List Card) (root : String)
    (hug : alookup "Unknown" (build_family_graph data) = none)
    (i : Nat) (c : Card) (hc : data.get? i = some c) :
    build_family_graph (data.map scrubUnknown) = build_family_graph data ∧
    ∃ oc, (mark_direct_lineage data root).get? i = some oc ∧
      (c.Father = some "Unknown" → oc.Father = some "Unknown") ∧
      (c.Mother = some "Unknown" → oc.Mother = some "Unknown") := by
  refine ⟨build_scrubUnknown data, ?_⟩
  by_cases hroot : (alookup root (build_family_graph data)).isSome
  · obtain ⟨d0, hat⟩ := bfsInv_nil_invAt (find_inv hroot)
    have hUnP : ¬ (alookup "Unknown"
        (find_shortest_path_tree (build_family_graph data) root)).isSome := by
      intro hsome
      have hreach := (final_keys_iff hat _).mp hsome
      have hmem := reachable_mem_of_closed (closed_build data) hroot hreach
      rw [hug] at hmem
      simp at hmem
    have hcond : ∀ person : String,
        ¬ ("Unknown" ≠ "" ∧
          (predGet (find_shortest_path_tree (build_family_graph data) root)
              person = some "Unknown" ∨
           predGet (find_shortest_path_tree (build_family_graph data) root)
              "Unknown" = some person)) := by
      rintro person ⟨-, hor | hor⟩
      · rw [predGet_some_iff] at hor
        obtain ⟨-, hmm, -⟩ := hat.entry_dist _ _ hor
        exact hUnP hmm
      · rw [predGet_some_iff] at hor
        exact hUnP (by rw [hor]; rfl)
    refine ⟨markCard (find_shortest_path_tree (build_family_graph data) root) c,
      ?_, ?_, ?_⟩
    · rw [mark_direct_lineage_get hroot i, hc]
      rfl
    · intro hf
      rw [markCard_Father, hf]
      exact markParentField_unmarked _ c.Name "Unknown" (hcond c.Name)
    · intro hm
      rw [markCard_Mother, hm]
      exact markParentField_unmarked _ c.Name "Unknown" (hcond c.Name)
  · have hm := mark_direct_lineage_absent hroot
    exact ⟨c, by rw [hm, hc], fun hf => hf, fun hm' => hm'⟩

/-- Witness for the amended C4: the sample graph has no `"Unknown"` node and
Hugo's `Father = "Unknown"` stays unmarked. -/
theorem unknown_parent_no_edge_no_mark_witness :
    alookup "Unknown" (build_family_graph sampleData) = none ∧
    sampleData.get? 10 =
      some ⟨"Hugo", some "Unknown", some "Unknown", some ["Oliver", "Aurora"], []⟩ ∧
    (build_family_graph (sampleData.map scrubUnknown) =
        build_family_graph sampleData ∧
(∃ oc, (mark_direct_lineage sampleData "Bob").get? 10 = some oc ∧
      ((⟨"Hugo", some "Unknown", some "Unknown", some ["Oliver", "Aurora"], []⟩ :
          Card).Father = some "Unknown" → oc.Father = some "Unknown") ∧
      ((⟨"Hugo", some "Unknown", some "Unknown", some ["Oliver", "Aurora"], []⟩ :
          Card).Mother = some "Unknown" → oc.Mother = some "Unknown"))) :=
  ⟨by decide, by decide,
    unknown_parent_no_edge_no_mark sampleData "Bob" (by decide) 10 _ (by decide)⟩

/-- C5 counterexample: with records `dataRootParent` and root `"R"`, the
root maps to the no-predecessor marker, yet the output marks the root's own
name: record `"A"` (whose predecessor is the root) gets `Father = "*R"`. -/
theorem root_name_marked :
    alookup "R" (find_shortest_path_tree (build_family_graph dataRootParent) "R") =
      some none ∧
    dataRootParent.get? 0 = some ⟨"A", some "R", none, none, []⟩ ∧
    mark_direct_lineage dataRootParent "R" =
      [⟨"A", some "*R", none, some [], []⟩] := by decide

/-- C5 amended: the root maps to the no-predecessor marker (`None`) and is
the only entry that does; the root's name, appearing as a father, mother or
child entry of record `c`, is marked IFF `c`'s own name has the root as its
BFS predecessor (for parents, additionally the root's name must be
nonempty) — the root is never marked on account of having a predecessor
itself, since it has none. -/
theorem root_entry_and_marking (data : List Card) (root : String)
    (hroot : (alookup root (build_family_graph data)).isSome)
    (i : Nat) (c : Card) (hc : data.get? i = some c) :
    alookup root (find_shortest_path_tree (build_family_graph data) root) =
      some none ∧
    (∀ n, alookup n (find_shortest_path_tree (build_family_graph data) root) =
      some none → n = root) ∧
    ∃ oc, (mark_direct_lineage data root).get? i = some oc ∧
      (c.Father = some root →
        (oc.Father = some ("*" ++ root) ↔
          (root ≠ "" ∧
            predGet (find_shortest_path_tree (build_family_graph data) root)
              c.Name = some root))) ∧
      (c.Mother = some root →
        (oc.Mother = some ("*" ++ root) ↔
          (root ≠ "" ∧
            predGet (find_shortest_path_tree (build_family_graph data) root)
              c.Name = some root))) ∧
      (∀ j, (c.Children.getD []).get? j = some root →
        ((oc.Children.getD []).get? j = some ("*" ++ root) ↔
          predGet (find_shortest_path_tree (build_family_graph data) root)
            c.Name = some root)) := by
  obtain ⟨d0, hat⟩ := bfsInv_nil_invAt (find_inv hroot)
  have hre := find_root_entry hroot
  have hpg : predGet (find_shortest_path_tree (build_family_graph data) root)
      root = none := predGet_root hre
  refine ⟨hre, hat.root_only_none,
    markCard (find_shortest_path_tree (build_family_graph data) root) c,
    ?_, ?_, ?_, ?_⟩
  · rw [mark_direct_lineage_get hroot i, hc]
    rfl
  · intro hf
    rw [markCard_Father, hf]
    constructor
    · intro h
      obtain ⟨hne, hor⟩ := (markParentField_marked_iff _ c.Name root).mp h
      rcases hor with h1 | h2
      · exact ⟨hne, h1⟩
      · rw [hpg] at h2
        cases h2
    · rintro ⟨hne, h1⟩
      exact (markParentField_marked_iff _ c.Name root).mpr ⟨hne, Or.inl h1⟩
  · intro hm
    rw [markCard_Mother, hm]
    constructor
    · intro h
      obtain ⟨hne, hor⟩ := (markParentField_marked_iff _ c.Name root).mp h
      rcases hor with h1 | h2
      · exact ⟨hne, h1⟩
      · rw [hpg] at h2
        cases h2
    · rintro ⟨hne, h1⟩
      exact (markParentField_marked_iff _ c.Name root).mpr ⟨hne, Or.inl h1⟩
  · intro j hj
    rw [markCard_Children, Option.getD_some, List.get?_map, hj]
    have hinj : ∀ s t : String, (some s = some t) ↔ s = t := by
      intro s t
      exact ⟨fun h => by injection h, fun h => by rw [h]⟩
    rw [Option.map_some', hinj]
    constructor
    · intro h
      rcases (markChild_marked_iff _ c.Name root).mp h with h1 | h2
      · rw [hpg] at h1
        cases h1
      · exact h2
    · intro h1
      exact (markChild_marked_iff _ c.Name root).mpr (Or.inr h1)

/-- Witness for the amended C5 on `dataRootParent` with root `"R"`. -/
theorem root_entry_and_marking_witness :
    (alookup "R" (build_family_graph dataRootParent)).isSome ∧
    dataRootParent.get? 0 = some ⟨"A", some "R", none, none, []⟩ ∧
    (alookup "R" (find_shortest_path_tree (build_family_graph dataRootParent) "R") =
      some none ∧
    (∀ n, alookup n (find_shortest_path_tree (build_family_graph dataRootParent) "R") =
      some none → n = "R") ∧
    ∃ oc, (mark_direct_lineage dataRootParent "R").get? 0 = some oc ∧
      ((⟨"A", some "R", none, none, []⟩ : Card).Father = some "R" →
        (oc.Father = some ("*" ++ "R") ↔
          ("R" ≠ "" ∧
            predGet (find_shortest_path_tree (build_family_graph dataRootParent) "R")
              (⟨"A", some "R", none, none, []⟩ : Card).Name = some "R"))) ∧
      ((⟨"A", some "R", none, none, []⟩ : Card).Mother = some "R" →
        (oc.Mother = some ("*" ++ "R") ↔
          ("R" ≠ "" ∧
            predGet (find_shortest_path_tree (build_family_graph dataRootParent) "R")
              (⟨"A", some "R", none, none, []⟩ : Card).Name = some "R"))) ∧
      (∀ j, ((⟨"A", some "R", none, none, []⟩ : Card).Children.getD []).get? j =
          some "R" →
        ((oc.Children.getD []).get? j = some ("*" ++ "R") ↔
          predGet (find_shortest_path_tree (build_family_graph dataRootParent) "R")
            (⟨"A", some "R", none, none, []⟩ : Card).Name = some "R"))) :=
  ⟨by decide, by decide,
    root_entry_and_marking dataRootParent "R" (by decide) 0 _ (by decide)⟩

end FamilyTree
